import Mathlib

/-!
Verification of the file-filtering, tree-building and chunk-packing core
(`src/utils/fileProcessing.ts`).  All string processing is modelled over
`List Char` so that every definition evaluates inside the kernel.  JavaScript
numbers used for token budgets are modelled as `Int` (the limit may be
non-positive); token counts themselves are natural numbers.
-/

/-! ## Generic character/string helpers (models of the JS string primitives used) -/

/-- Model of JavaScript `String.prototype.split` with a single-character
separator: splits a character list at every occurrence of `sep`; always
returns a non-empty list of pieces, pieces do not contain `sep`. -/
def splitOnChar (sep : Char) : List Char → List (List Char)
  | [] => [[]]
  | c :: cs =>
    if c = sep then [] :: splitOnChar sep cs
    else
      match splitOnChar sep cs with
      | [] => [[c]]
      | p :: ps => (c :: p) :: ps

/-- `path.split('/')` as used throughout the source. -/
def splitPath (s : String) : List String :=
  (splitOnChar '/' s.data).map String.mk

/-- Model of `Array.prototype.join('/')` on path segments. -/
def joinSegs : List (List Char) → List Char
  | [] => []
  | [p] => p
  | p :: q :: ps => p ++ '/' :: joinSegs (q :: ps)

/-- `parts.slice(0, i).join('/')` packaged as a `String`. -/
def joinPath (l : List String) : String :=
  String.mk (joinSegs (l.map String.data))

/-- Index of the last occurrence of `c` (model of `String.prototype.lastIndexOf`
restricted to single characters; `none` plays the role of `-1`). -/
def lastIdxOf (c : Char) : List Char → Option Nat
  | [] => none
  | x :: xs =>
    match lastIdxOf c xs with
    | some i => some (i + 1)
    | none => if x = c then some 0 else none

/-- Membership of a string in a fixed list (model of `Set.prototype.has`). -/
def memStr (l : List String) (s : String) : Bool :=
  l.any (fun x => x = s)

/-- Membership of a character in a fixed list. -/
def memChar (l : List Char) (c : Char) : Bool :=
  l.any (fun x => x = c)

/-- `text.toLowerCase()`; character-wise ASCII lowering. -/
def lowerStr (s : String) : String :=
  String.mk (s.data.map Char.toLower)

/-- `text.trim()`: strip whitespace from both ends. -/
def trimStr (s : String) : String :=
  String.mk (((s.data.dropWhile Char.isWhitespace).reverse.dropWhile Char.isWhitespace).reverse)

/-! ## IgnoreFilter (`isIgnored`) -/

/-- The `IGNORED_DIRS` set from the source. -/
def IGNORED_DIRS : List String :=
  ["node_modules", ".git", ".vscode", ".idea", "dist", "build", "out", "target",
   ".next", ".nuxt", "coverage", "venv", "__pycache__", ".DS_Store"]

/-- The `IGNORED_EXTENSIONS` set from the source (its data mixes dot-led
extensions with three full lock-file names). -/
def IGNORED_EXTENSIONS : List String :=
  [".png", ".jpg", ".jpeg", ".gif", ".svg", ".ico", ".webp", ".bmp", ".tiff",
   ".mp3", ".mp4", ".wav", ".avi", ".mov", ".flv",
   ".zip", ".tar", ".gz", ".rar", ".7z", ".exe", ".dll", ".so", ".dylib", ".bin",
   ".pdf", ".doc", ".docx", ".ppt", ".pptx", ".xls", ".xlsx",
   ".lock", "package-lock.json", "yarn.lock", "pnpm-lock.yaml"]

/-- `isIgnored` from the source: noise-directory segments, the explicit
`.DS_Store` file-name check, then the lowercased substring from the last dot
looked up in `IGNORED_EXTENSIONS`. -/
def isIgnored (path : String) : Bool :=
  let parts := splitPath path
  if parts.any (fun part => memStr IGNORED_DIRS part) then true
  else
    let filename := parts.getLastD ""
    if (match filename.data with | '.' :: _ => true | _ => false) && filename = ".DS_Store" then
      true
    else
      match lastIdxOf '.' filename.data with
      | none => false
      | some i => memStr IGNORED_EXTENSIONS (lowerStr (String.mk (filename.data.drop i)))

/-! ## PatternMatcher (`createPatternMatcher`) -/

/-- Line terminators, which the regex `.` atom never matches. -/
def isLineTerm (c : Char) : Bool :=
  c = '\n' || c = '\r' || c = Char.ofNat 8232 || c = Char.ofNat 8233

/-- The character class `[.+^$\x7b\x7d()|[\]\\]` of the escaping `replace`. -/
def metaChars : List Char :=
  ['.', '+', '^', '$', Char.ofNat 123, Char.ofNat 125, '(', ')', '|', '[', ']', '\\']

/-- `pattern.replace(/[.+^$\x7b\x7d()|[\]\\]/g, '\\$&')`. -/
def escapeMeta (s : String) : String :=
  String.mk (s.data.flatMap (fun c => if memChar metaChars c then ['\\', c] else [c]))

def isLowerAZ (c : Char) : Bool := 'a' ≤ c && c ≤ 'z'

/-- Model of `pattern.match(/^\/(.+)\/([a-z]*)$/)`: on success returns the
(greedy-maximal) body together with the flag letters.  The `.` of the matching
regex excludes line terminators, which constrains the body. -/
def wrappedParse (pattern : String) : Option (String × String) :=
  match pattern.data with
  | '/' :: rest =>
    let revAll := rest.reverse
    let revFlags := revAll.takeWhile isLowerAZ
    match revAll.drop revFlags.length with
    | '/' :: revBody =>
      if revBody ≠ [] && revBody.all (fun c => !isLineTerm c) then
        some (String.mk revBody.reverse, String.mk revFlags.reverse)
      else none
    | _ => none
  | _ => none

/-- Modelled from the spec and the ECMAScript `RegExp` grammar: a syntax
validator deciding whether `new RegExp(source)` succeeds.  It covers the
constructs reachable from this program's patterns: literals, `.`, escapes,
groups (incl. `(?:`/`(?=`/`(?!`), character classes, alternation and the
`* + ?` quantifiers with the "nothing to repeat" and double-quantifier
errors; braces are treated as literal characters (Annex B).  Fuel-driven;
the initial fuel is large enough for every input considered here. -/
def reClass : List Char → Option (List Char)
  | [] => none
  | ']' :: rest => some rest
  | '\\' :: [] => none
  | '\\' :: _ :: rest => reClass rest
  | _ :: rest => reClass rest

/-- Consume one optional quantifier (`*`, `+` or `?`), itself optionally
followed by a single lazy `?`. -/
def reQuant : List Char → List Char
  | c :: cs =>
    if c = '*' || c = '+' || c = '?' then
      match cs with
      | '?' :: rest => rest
      | rest => rest
    else c :: cs
  | [] => []

mutual
def reDisj : Nat → List Char → Option (List Char)
  | 0, _ => none
  | fuel + 1, cs =>
    match reAlt fuel cs with
    | none => none
    | some rest =>
      match rest with
      | '|' :: rest2 => reDisj fuel rest2
      | _ => some rest

def reAlt : Nat → List Char → Option (List Char)
  | 0, _ => none
  | _ + 1, [] => some []
  | fuel + 1, c :: cs =>
    if c = ')' || c = '|' then some (c :: cs)
    else if c = '*' || c = '+' || c = '?' then none
    else
      match reAtom fuel (c :: cs) with
      | none => none
      | some rest => reAlt fuel (reQuant rest)

def reAtom : Nat → List Char → Option (List Char)
  | 0, _ => none
  | _ + 1, [] => none
  | fuel + 1, c :: cs =>
    if c = '(' then
      let inner :=
        match cs with
        | '?' :: ':' :: r => r
        | '?' :: '=' :: r => r
        | '?' :: '!' :: r => r
        | '?' :: '<' :: '=' :: r => r
        | '?' :: '<' :: '!' :: r => r
        | r => r
      match reDisj fuel inner with
      | some (')' :: rest) => some rest
      | _ => none
    else if c = '[' then reClass cs
    else if c = '\\' then
      match cs with
      | [] => none
      | _ :: rest => some rest
    else if c = ')' then none
    else some cs
end

/-- Whether `new RegExp(source)` compiles without throwing. -/
def regexValid (cs : List Char) : Bool :=
  match reDisj (3 * cs.length + 8) cs with
  | some [] => true
  | _ => false

/-- One token of the regex the glob branch constructs: after metacharacter
escaping, `*` becomes `.*`, `?` becomes `.`, and every other character is a
literal. -/
inductive GTok where
  | lit (c : Char)
  | star
  | anyc
  deriving Repr, DecidableEq

def globTokens : List Char → List GTok
  | [] => []
  | c :: cs =>
    (if c = '*' then GTok.star else if c = '?' then GTok.anyc else GTok.lit c) :: globTokens cs

/-- Case-insensitive literal character match (the `'i'` flag). -/
def litMatches (c d : Char) : Bool := c.toLower = d.toLower

/-- Do the tokens match some leading portion of `ds`?  `star` consumes any
run of non-line-terminator characters (searched over every split length),
`anyc` a single one. -/
def toksMatchPre : List GTok → List Char → Bool
  | [], _ => true
  | GTok.star :: ts, ds =>
    (List.range (ds.length + 1)).any
      (fun k => (ds.take k).all (fun d => !isLineTerm d) && toksMatchPre ts (ds.drop k))
  | GTok.lit c :: ts, d :: ds => litMatches c d && toksMatchPre ts ds
  | GTok.anyc :: ts, d :: ds => !isLineTerm d && toksMatchPre ts ds
  | _ :: _, [] => false

/-- `RegExp.prototype.test` for an unanchored token regex: search for a match
starting at any position. -/
def toksSearch (ts : List GTok) : List Char → Bool
  | [] => toksMatchPre ts []
  | d :: ds => toksMatchPre ts (d :: ds) || toksSearch ts ds

/-- Do the tokens match exactly the whole of `ds` (for an `$`-anchored regex)? -/
def toksMatchAll : List GTok → List Char → Bool
  | [], ds => ds.isEmpty
  | GTok.star :: ts, ds =>
    (List.range (ds.length + 1)).any
      (fun k => (ds.take k).all (fun d => !isLineTerm d) && toksMatchAll ts (ds.drop k))
  | GTok.lit c :: ts, d :: ds => litMatches c d && toksMatchAll ts ds
  | GTok.anyc :: ts, d :: ds => !isLineTerm d && toksMatchAll ts ds
  | _ :: _, [] => false

/-- `test` for a regex anchored at end of string: some suffix is fully matched. -/
def toksSearchEnd (ts : List GTok) : List Char → Bool
  | [] => toksMatchAll ts []
  | d :: ds => toksMatchAll ts (d :: ds) || toksSearchEnd ts ds

/-- The compiled matcher returned by `createPatternMatcher`.  `compiled` keeps
the successfully compiled explicit body with its flags, `fallback` the
metacharacter-escaped whole pattern compiled in the catch branch; the two glob
constructors carry the token regex, tested for containment resp. anchored at
end of string (both case-insensitive). -/
inductive Matcher where
  | compiled (body flags : String)
  | fallback (source : String)
  | globContain (toks : List GTok)
  | globEnd (toks : List GTok)
  deriving Repr, DecidableEq

/-- `createPatternMatcher`.  `none` models an exception escaping to the
caller (the `catch` branch constructs a second `RegExp` outside any guard). -/
def createPatternMatcher (pattern : String) : Option Matcher :=
  match wrappedParse pattern with
  | some (body, flags) =>
    if regexValid body.data then
      some (Matcher.compiled body (if flags = "" then "i" else flags))
    else
      let esc := escapeMeta pattern
      if regexValid esc.data then some (Matcher.fallback esc) else none
  | none =>
    let toks := globTokens pattern.data
    if pattern.data.getLastD ' ' = '/' then some (Matcher.globContain toks)
    else if (match pattern.data with | '.' :: _ => true | _ => false) then
      some (Matcher.globEnd toks)
    else some (Matcher.globContain toks)

/-- `matcher.test(s)` where the matching semantics is modelled (glob branch);
`none` for the two constructors whose full regex semantics is out of scope. -/
def matcherTest (m : Matcher) (s : String) : Option Bool :=
  match m with
  | Matcher.globContain ts => some (toksSearch ts s.data)
  | Matcher.globEnd ts => some (toksSearchEnd ts s.data)
  | _ => none

/-! ## Data model -/

structure ProcessedFile where
  path : String
  name : String
  content : String
  size : Nat
  selected : Bool
  isBinary : Bool
  summary : Option String
  deriving Repr, DecidableEq

structure OutputOptions where
  includeSummaries : Bool
  deriving Repr, DecidableEq

/-! ## TokenEstimator and CommentWrapperResolver -/

/-- `estimateTokens`: `Math.ceil(text.length / 4)`. -/
def estimateTokens (text : String) : Nat :=
  (text.data.length + 3) / 4

/-- `getCommentWrapper`: comment delimiters from the lowercased extension
(`fileName.split('.').pop()?.toLowerCase()`). -/
def getCommentWrapper (fileName : String) : String × String :=
  let ext := lowerStr (((splitOnChar '.' fileName.data).map String.mk).getLastD "")
  match ext with
  | "html" | "xml" | "svg" | "vue" => ("<!--", "-->")
  | "css" | "scss" | "less" => ("/*", "*/")
  | "py" | "rb" | "sh" | "yaml" | "yml" | "dockerfile" => ("#", "")
  | "js" | "jsx" | "ts" | "tsx" | "java" | "c" | "cpp" | "cs" | "go" | "rs"
  | "swift" | "php" => ("//", "")
  | "sql" => ("--", "")
  | _ => ("#", "")

/-! ## OutputAssembler (`generateLLMOutput`) -/

/-- The per-file block built inside `generateLLMOutput`'s `map` callback.
JavaScript truthiness: an absent or empty summary skips the annotation. -/
def assembleFileBlock (options : OutputOptions) (f : ProcessedFile) : String :=
  let content := f.content
  let content :=
    match f.summary with
    | some s =>
      if s ≠ "" && options.includeSummaries then
        let pre := (getCommentWrapper f.name).1
        let suf := (getCommentWrapper f.name).2
        let st := if pre ≠ "" then pre ++ " SUMMARY: " else "SUMMARY: "
        let en := if suf ≠ "" then " " ++ suf else ""
        st ++ trimStr s ++ en ++ "\n" ++ content
      else content
    | none => content
  "\n\n--- FILE START: " ++ f.path ++ " ---\n" ++ content ++ "\n--- FILE END: " ++ f.path ++ " ---"

/-- `generateLLMOutput`: filter to selected files, map to blocks, join. -/
def generateLLMOutput (files : List ProcessedFile) (options : OutputOptions) : String :=
  String.join ((files.filter (fun f => f.selected)).map (assembleFileBlock options))

/-! ## ChunkPacker (`generateChunks`) -/

/-- The chunker's internal `formatFile` helper (a second copy of the block
builder, translated separately from its own source lines). -/
def formatFile (options : OutputOptions) (f : ProcessedFile) : String :=
  let content := f.content
  let content :=
    match f.summary with
    | some s =>
      if s ≠ "" && options.includeSummaries then
        let pre := (getCommentWrapper f.name).1
        let suf := (getCommentWrapper f.name).2
        let st := if pre ≠ "" then pre ++ " SUMMARY: " else "SUMMARY: "
        let en := if suf ≠ "" then " " ++ suf else ""
        st ++ trimStr s ++ en ++ "\n" ++ content
      else content
    | none => content
  "\n\n--- FILE START: " ++ f.path ++ " ---\n" ++ content ++ "\n--- FILE END: " ++ f.path ++ " ---"

/-- Directory key of a path: substring before the last `/`, or `.` when there
is none. -/
def dirOf (path : String) : String :=
  match lastIdxOf '/' path.data with
  | none => "."
  | some i => String.mk (path.data.take i)

/-- Insertion-ordered grouping (model of the `Map<string, ProcessedFile[]>`):
append `f` to the group of `dir`, creating it at the end on first sight. -/
def addToGroups (gs : List (String × List ProcessedFile)) (dir : String) (f : ProcessedFile) :
    List (String × List ProcessedFile) :=
  match gs with
  | [] => [(dir, [f])]
  | (d, fs) :: rest =>
    if d = dir then (d, fs ++ [f]) :: rest else (d, fs) :: addToGroups rest dir f

def lookupGroup (gs : List (String × List ProcessedFile)) (dir : String) :
    Option (List ProcessedFile) :=
  match gs with
  | [] => none
  | (d, fs) :: rest => if d = dir then some fs else lookupGroup rest dir

/-- Case-insensitive lexicographic strict order on character lists, modelling
`a.toLowerCase().localeCompare(b.toLowerCase()) < 0`. -/
def lowerLt : List Char → List Char → Bool
  | [], [] => false
  | [], _ :: _ => true
  | _ :: _, [] => false
  | a :: as, b :: bs => if a.toLower = b.toLower then lowerLt as bs else decide (a.toLower < b.toLower)

/-- The directory comparator of the source returns a negative value exactly
when `a` sorts strictly before `b`: `.` first, then case-insensitive order. -/
def dirBefore (a b : String) : Bool :=
  if a = "." then true
  else if b = "." then false
  else lowerLt a.data b.data

/-- Stable insertion placing `x` before the first element it sorts strictly
before (the deterministic order `Array.prototype.sort` produces with this
comparator). -/
def insertDir (x : String) : List String → List String
  | [] => [x]
  | y :: ys => if dirBefore x y then x :: y :: ys else y :: insertDir x ys

def sortDirs (l : List String) : List String :=
  l.foldl (fun acc d => insertDir d acc) []

/-- Mutable packing state of the directory loop. -/
structure PackState where
  chunks : List String
  currentChunk : String
  currentTokens : Nat
  deriving Repr, DecidableEq

/-- Scenario 4's inner loop body: flush if appending would exceed the limit
and the chunk is non-empty, then always append. -/
def packFileStep (tokenLimit : Int) (st : PackState) (fileStr : String) : PackState :=
  let fileTokens := estimateTokens fileStr
  let st1 : PackState :=
    if (st.currentTokens + fileTokens : Int) > tokenLimit then
      if st.currentChunk.length > 0 then ⟨st.chunks ++ [st.currentChunk], "", 0⟩ else st
    else st
  ⟨st1.chunks, st1.currentChunk ++ fileStr, st1.currentTokens + fileTokens⟩

/-- The body of the directory loop: atomic fit, flush, fresh-chunk fit, and
the per-file fallback for oversized groups. -/
def packGroupStep (tokenLimit : Int) (options : OutputOptions) (st : PackState)
    (groupFiles : List ProcessedFile) : PackState :=
  if groupFiles.isEmpty then st
  else
    let groupStrings := groupFiles.map (formatFile options)
    let groupTotalTokens := groupStrings.foldl (fun acc s => acc + estimateTokens s) 0
    if (st.currentTokens + groupTotalTokens : Int) ≤ tokenLimit then
      ⟨st.chunks, st.currentChunk ++ String.join groupStrings, st.currentTokens + groupTotalTokens⟩
    else
      let st1 : PackState :=
        if st.currentChunk.length > 0 then ⟨st.chunks ++ [st.currentChunk], "", 0⟩ else st
      if (groupTotalTokens : Int) ≤ tokenLimit then
        ⟨st1.chunks, st1.currentChunk ++ String.join groupStrings, st1.currentTokens + groupTotalTokens⟩
      else
        groupStrings.foldl (packFileStep tokenLimit) st1

/-- `files.filter(f => f.selected)`. -/
def selectedOf (files : List ProcessedFile) : List ProcessedFile :=
  files.filter (fun f => f.selected)

/-- The `dirGroups` map of `generateChunks`. -/
def dirGroupsOf (files : List ProcessedFile) : List (String × List ProcessedFile) :=
  (selectedOf files).foldl (fun gs f => addToGroups gs (dirOf f.path) f) []

/-- The `sortedDirs` array of `generateChunks`. -/
def sortedDirsOf (files : List ProcessedFile) : List String :=
  sortDirs ((dirGroupsOf files).map Prod.fst)

/-- The body of the directory loop (`dirGroups.get(dir)!` then pack). -/
def dirStep (tokenLimit : Int) (options : OutputOptions)
    (gs : List (String × List ProcessedFile)) (st : PackState) (dir : String) : PackState :=
  match lookupGroup gs dir with
  | some groupFiles => packGroupStep tokenLimit options st groupFiles
  | none => st

/-- `generateChunks`. -/
def generateChunks (files : List ProcessedFile) (tokenLimit : Int) (options : OutputOptions) :
    List String :=
  let selectedFiles := selectedOf files
  if selectedFiles.isEmpty then []
  else
    let dirGroups := dirGroupsOf files
    let sortedDirs := sortedDirsOf files
    let finalState : PackState := sortedDirs.foldl (dirStep tokenLimit options dirGroups) ⟨[], "", 0⟩
    if finalState.currentChunk.length > 0 then finalState.chunks ++ [finalState.currentChunk]
    else finalState.chunks

/-- The order in which the packer visits the selected files: root group first,
remaining directory groups sorted, input order inside each group. -/
def packOrder (files : List ProcessedFile) : List ProcessedFile :=
  (sortedDirsOf files).flatMap (fun d => (lookupGroup (dirGroupsOf files) d).getD [])

/-- The formatted blocks in packer order. -/
def blockList (files : List ProcessedFile) (options : OutputOptions) : List String :=
  (packOrder files).map (formatFile options)

/-- The chunker's group token total: `reduce((acc, str) => acc + estimateTokens(str), 0)`. -/
def groupTokens (options : OutputOptions) (g : List ProcessedFile) : Nat :=
  (g.map (formatFile options)).foldl (fun acc s => acc + estimateTokens s) 0

/-- Close the current chunk when it holds content (the shared flush step). -/
def flushIfSt (st : PackState) : PackState :=
  if st.currentChunk.length > 0 then ⟨st.chunks ++ [st.currentChunk], "", 0⟩ else st

/-! ## FileTreeBuilder (`buildFileTree`) -/

inductive FileNode where
  | mk (name path : String) (isFile checked : Bool) (children : Option (List FileNode))
  deriving Repr

def FileNode.name : FileNode → String
  | .mk n _ _ _ _ => n

def FileNode.path : FileNode → String
  | .mk _ p _ _ _ => p

def FileNode.isFile : FileNode → Bool
  | .mk _ _ b _ _ => b

def FileNode.checked : FileNode → Bool
  | .mk _ _ _ b _ => b

def FileNode.children : FileNode → Option (List FileNode)
  | .mk _ _ _ _ cs => cs

/-- `currentLevel.find(node => node.path === path)`. -/
def findNode (level : List FileNode) (path : String) : Option FileNode :=
  level.find? (fun n => n.path = path)

/-- In-place mutation of the found node's children, functionally: replace the
children of the first node carrying `path`. -/
def replaceChildren (level : List FileNode) (path : String) (newChildren : List FileNode) :
    List FileNode :=
  match level with
  | [] => []
  | n :: ns =>
    if n.path = path then FileNode.mk n.name n.path n.isFile n.checked (some newChildren) :: ns
    else n :: replaceChildren ns path newChildren

/-- One file's walk of `buildFileTree`: process the remaining `parts` against
`level`, where `consumed` holds the segments already walked (the cumulative
path is recomputed from them, as `parts.slice(0, index+1).join('/')` does).
When an existing node has no children array the walk stays at the same level
and continues — the faithful translation of the mutable `currentLevel`. -/
def insertParts (level : List FileNode) (consumed : List String) : List String → List FileNode
  | [] => level
  | part :: rest =>
    let isFile := rest.isEmpty
    let path := joinPath (consumed ++ [part])
    match findNode level path with
    | none =>
      if isFile then level ++ [FileNode.mk part path true true none]
      else
        level ++ [FileNode.mk part path false true (some (insertParts [] (consumed ++ [part]) rest))]
    | some node =>
      match node.children with
      | some cs =>
        if isFile then level
        else replaceChildren level path (insertParts cs (consumed ++ [part]) rest)
      | none => insertParts level (consumed ++ [part]) rest

/-- `buildFileTree`. -/
def buildFileTree (files : List ProcessedFile) : List FileNode :=
  files.foldl (fun root f => insertParts root [] (splitPath f.path)) []

/-- The only fixed file-name check `isIgnored` performs on the basename (the
explicit `.DS_Store` comparison in the source). -/
def NOISE_FILENAMES : List String := [".DS_Store"]

/-! ## Substring-witness predicate and the packing invariant -/

/-- `s` occurs contiguously inside `t`. -/
def isSubstrS (s t : String) : Prop := ∃ p q, t = p ++ s ++ q

/-- The invariant tying a packing state to the list of blocks already
processed: the emitted chunks together with the open chunk are exactly a
segmentation of those blocks into non-empty consecutive runs. -/
def PackInv (blocks : List String) (st : PackState) : Prop :=
  ∃ (segs : List (List String)) (cur : List String),
    st.chunks = segs.map String.join ∧ st.currentChunk = String.join cur ∧
    segs.flatten ++ cur = blocks ∧ (∀ s ∈ segs, s ≠ [])

/-- The string `s` survives intact in the packing state: inside an emitted
chunk or inside the open chunk. -/
def GroupIntact (s : String) (st : PackState) : Prop :=
  (∃ c ∈ st.chunks, isSubstrS s c) ∨ isSubstrS s st.currentChunk

/-! ## Concrete inputs used in scenario theorems and counterexamples -/

/-- A selected file in directory `s`. -/
def cxDirFile : ProcessedFile := ⟨"s/b", "b", "x", 1, true, false, none⟩

/-- A selected root-level file. -/
def cxRootFile : ProcessedFile := ⟨"a", "a", "y", 1, true, false, none⟩

def cxOpts : OutputOptions := ⟨true⟩

/-- Scenario B: its formatted block has length 200, i.e. 50 estimated tokens. -/
def exOversized : ProcessedFile :=
  ⟨"a", "a", String.mk (List.replicate 156 'x'), 156, true, false, none⟩

/-- Root file whose block is 80 characters = 20 tokens. -/
def exFitR : ProcessedFile :=
  ⟨"r", "r", String.mk (List.replicate 36 'x'), 36, true, false, none⟩

/-- Directory file whose block is 80 characters = 20 tokens. -/
def exFitD : ProcessedFile :=
  ⟨"d/f", "f", String.mk (List.replicate 32 'y'), 32, true, false, none⟩

/-- Three files of one directory: 20, 20 and 21 tokens. -/
def exSplitX : ProcessedFile :=
  ⟨"e/x", "x", String.mk (List.replicate 32 'x'), 32, true, false, none⟩

def exSplitY : ProcessedFile :=
  ⟨"e/y", "y", String.mk (List.replicate 32 'y'), 32, true, false, none⟩

def exSplitZ : ProcessedFile :=
  ⟨"e/z", "z", String.mk (List.replicate 36 'z'), 36, true, false, none⟩

/-! ## FileTreeBuilder predicates (claim C8) -/

mutual
def nodePaths : FileNode → List String
  | .mk _ p _ _ none => [p]
  | .mk _ p _ _ (some cs) => p :: forestPaths cs
def forestPaths : List FileNode → List String
  | [] => []
  | n :: ns => nodePaths n ++ forestPaths ns
end

/-- Segment list of a path string, as `buildFileTree` splits it. -/
def segsOf (p : String) : List String := splitPath p

/-- Cumulative path prefixes contributed by the remaining parts, continuing
from the segments already consumed. -/
def cumPaths (consumed : List String) : List String → List String
  | [] => []
  | part :: rest => joinPath (consumed ++ [part]) :: cumPaths (consumed ++ [part]) rest

/-- All cumulative path prefixes of the input files. -/
def allTreePaths (files : List ProcessedFile) : List String :=
  files.flatMap (fun f => cumPaths [] (splitPath f.path))

/-- Per-level conditions of the tree invariant at ancestor segments `base`:
every node's segments strictly extend `base`, and every strictly-intermediate
prefix of a node's segments is present at the same level as a childless node
(left behind by a walk that could not descend). -/
def LevelConds (base : List String) (level : List FileNode) : Prop :=
  (∀ n ∈ level, base <+: segsOf n.path ∧ base ≠ segsOf n.path) ∧
  (∀ n ∈ level, ∀ q : List String, base <+: q → q <+: segsOf n.path →
    q ≠ base → q ≠ segsOf n.path →
    ∃ m ∈ level, segsOf m.path = q ∧ m.children = none)

mutual
/-- The full invariant of forests reachable by `buildFileTree`: recursive
per-level conditions together with global distinctness of node paths. -/
def ForestWF : List String → List FileNode → Prop
  | base, level => AllChildrenWF level ∧ LevelConds base level ∧ (forestPaths level).Nodup
def AllChildrenWF : List FileNode → Prop
  | [] => True
  | n :: ns => NodeChildrenWF n ∧ AllChildrenWF ns
def NodeChildrenWF : FileNode → Prop
  | .mk _ _ _ _ none => True
  | .mk _ p _ _ (some cs) => ForestWF (segsOf p) cs
end

mutual
/-- `m` extends `n` in place: same fields, children recursively extended. -/
def NodeLe : FileNode → FileNode → Prop
  | .mk n1 p1 f1 c1 ch1, .mk n2 p2 f2 c2 ch2 =>
    n1 = n2 ∧ p1 = p2 ∧ f1 = f2 ∧ c1 = c2 ∧ ChildLe ch1 ch2
def ChildLe : Option (List FileNode) → Option (List FileNode) → Prop
  | none, none => True
  | some cs1, some cs2 => ForestLe cs1 cs2
  | _, _ => False
/-- Sibling-order preservation: the new forest extends the old one node by
node in position, with new siblings only appended at the end. -/
def ForestLe : List FileNode → List FileNode → Prop
  | [], _ => True
  | _ :: _, [] => False
  | n :: ns, m :: ms => NodeLe n m ∧ ForestLe ns ms
end

/-- Two files whose input order is not alphabetical. -/
def exOrdB : ProcessedFile := ⟨"b", "b", "1", 1, true, false, none⟩

def exOrdA : ProcessedFile := ⟨"a", "a", "2", 1, true, false, none⟩

/-! ## String helper lemmas -/

theorem str_data_append (a b : String) : (a ++ b).data = a.data ++ b.data := by
  cases a; cases b; rfl

theorem str_ne_empty_iff (s : String) : s ≠ "" ↔ s.data ≠ [] := by
  cases s; simp [String.ext_iff]

theorem str_length_pos_iff (s : String) : 0 < s.length ↔ s ≠ "" := by
  cases s with
  | mk l => simp [String.length, String.ext_iff, List.length_pos]

theorem join_data (ss : List String) : (String.join ss).data = (ss.map String.data).flatten := by
  rw [String.join_eq]

theorem join_append (a b : List String) :
    String.join (a ++ b) = String.join a ++ String.join b := by
  apply String.ext
  simp [join_data, str_data_append]

theorem join_singleton (s : String) : String.join [s] = s := by
  apply String.ext
  simp [join_data]

theorem join_nil_eq : String.join [] = "" := rfl

theorem join_eq_empty_of_ne {l : List String} (hne : ∀ s ∈ l, s ≠ "")
    (hj : String.join l = "") : l = [] := by
  cases l with
  | nil => rfl
  | cons s ss =>
    exfalso
    apply (str_ne_empty_iff s).mp (hne s (by simp))
    have h2 : (String.join (s :: ss)).data = ([] : List Char) := by rw [hj]
    rw [join_data] at h2
    simp only [List.map_cons, List.flatten_cons, List.append_eq_nil] at h2
    exact h2.1

theorem isSubstrS_self (s : String) : isSubstrS s s := ⟨"", "", by simp⟩

theorem isSubstrS_append_right {s t : String} (u : String) (h : isSubstrS s t) :
    isSubstrS s (t ++ u) := by
  obtain ⟨p, q, rfl⟩ := h
  exact ⟨p, q ++ u, by simp [String.append_assoc]⟩

theorem isSubstrS_append_left {s t : String} (u : String) (h : isSubstrS s t) :
    isSubstrS s (u ++ t) := by
  obtain ⟨p, q, rfl⟩ := h
  exact ⟨u ++ p, q, by simp [String.append_assoc]⟩

theorem isSubstrS_of_sfx {s t : String} (h : ∃ p, t = p ++ s) : isSubstrS s t := by
  obtain ⟨p, rfl⟩ := h
  exact ⟨p, "", by simp⟩

theorem isSubstrS_join_of_mem {b : String} {l : List String} (h : b ∈ l) :
    isSubstrS b (String.join l) := by
  induction l with
  | nil => cases h
  | cons c l ih =>
    rw [show String.join (c :: l) = c ++ String.join l from by
      apply String.ext; simp [join_data]]
    rcases List.mem_cons.mp h with rfl | h
    · exact ⟨"", String.join l, by simp [String.append_assoc]⟩
    · exact isSubstrS_append_left c (ih h)

/-! ## Block formatting lemmas -/

theorem formatFile_shape (o : OutputOptions) (f : ProcessedFile) :
    ∃ c : String, formatFile o f =
      "\n\n--- FILE START: " ++ f.path ++ " ---\n" ++ c ++
        "\n--- FILE END: " ++ f.path ++ " ---" :=
  ⟨_, rfl⟩

theorem formatFile_ne_empty (o : OutputOptions) (f : ProcessedFile) : formatFile o f ≠ "" := by
  obtain ⟨c, hc⟩ := formatFile_shape o f
  rw [hc, str_ne_empty_iff]
  have h0 : "\n\n--- FILE START: ".data ≠ [] := by decide
  simp [str_data_append, h0]

theorem formatFile_eq_assembleFileBlock (o : OutputOptions) (f : ProcessedFile) :
    formatFile o f = assembleFileBlock o f := rfl

/-! ## Claim C4 (pattern compilation error handling) and C7 (glob scenario) -/

/-- C4: the claim states `createPatternMatcher` never raises for any input
pattern and that a wrapped pattern with an uncompilable body falls back to a
literal escaped substring matcher.  The code is wrong: the fallback `RegExp`
is built inside the `catch` block with `*` and `?` left unescaped, so for the
input `"/**/"` the fallback source `"/**/"` is itself invalid and the
constructor throws to the caller (modelled as `none`).  On tamer inputs such
as `"/(/"` the intended fallback is produced. -/
theorem c4_fallback_compilation_throws :
    createPatternMatcher "/**/" = none ∧
    createPatternMatcher "/(/" = some (Matcher.fallback "/\\(/") ∧
    wrappedParse "/**/" = some ("**", "") ∧
    regexValid "**".data = false ∧
    regexValid (escapeMeta "/**/").data = false := by
  decide

/-- C7: the matcher compiled from the glob `"*.test.ts"` matches
`"src/util.test.ts"` and does not match `"src/util.ts"`; the glob branch
escapes metacharacters and turns `*` into "any sequence", `?` into "any
single character". -/
theorem c7_glob_matches_scenario :
    createPatternMatcher "*.test.ts" =
      some (Matcher.globContain (globTokens "*.test.ts".data)) ∧
    (createPatternMatcher "*.test.ts").bind (fun m => matcherTest m "src/util.test.ts") =
      some true ∧
    (createPatternMatcher "*.test.ts").bind (fun m => matcherTest m "src/util.ts") =
      some false := by
  decide

/-! ## Claim C6 (isIgnored) -/

/-- C6: `isIgnored` returns true when a segment is a noise directory, when the
basename is in the noise-filename list, or when the lowercased extension
(substring from the last dot) is in `IGNORED_EXTENSIONS`; that denylist's data
names the three lock files; and the two concrete scenarios hold. -/
theorem c6_isIgnored_denylists :
    (∀ path part, part ∈ splitPath path → memStr IGNORED_DIRS part = true →
      isIgnored path = true) ∧
    (∀ path, memStr NOISE_FILENAMES ((splitPath path).getLastD "") = true →
      isIgnored path = true) ∧
    (∀ path i, lastIdxOf '.' ((splitPath path).getLastD "").data = some i →
      memStr IGNORED_EXTENSIONS
        (lowerStr (String.mk (((splitPath path).getLastD "").data.drop i))) = true →
      isIgnored path = true) ∧
    memStr IGNORED_EXTENSIONS "package-lock.json" = true ∧
    memStr IGNORED_EXTENSIONS "yarn.lock" = true ∧
    memStr IGNORED_EXTENSIONS "pnpm-lock.yaml" = true ∧
    isIgnored "node_modules/foo/bar.js" = true ∧
    isIgnored "src/index.ts" = false := by
  refine ⟨?_, ?_, ?_, by decide, by decide, by decide, by decide, by decide⟩
  · intro path part hmem hdir
    have hany : (splitPath path).any (fun part => memStr IGNORED_DIRS part) = true :=
      List.any_eq_true.mpr ⟨part, hmem, hdir⟩
    unfold isIgnored
    simp [hany]
  · intro path hbase
    have hb : (splitPath path).getLast?.getD "" = ".DS_Store" := by
      rw [← List.getLastD_eq_getLast?]
      rcases List.any_eq_true.mp hbase with ⟨x, hx, he⟩
      simp [NOISE_FILENAMES] at hx
      subst hx
      exact (of_decide_eq_true he).symm
    unfold isIgnored
    by_cases h1 : (splitPath path).any (fun part => memStr IGNORED_DIRS part)
    · simp [h1]
    · simp [h1, hb]
  · intro path i hidx hext
    unfold isIgnored
    by_cases h1 : (splitPath path).any (fun part => memStr IGNORED_DIRS part)
    · simp [h1]
    · by_cases h2 : (splitPath path).getLastD "" = ".DS_Store"
      · have hb : (splitPath path).getLast?.getD "" = ".DS_Store" := by
          rw [← List.getLastD_eq_getLast?]; exact h2
        simp [h1, hb]
      · have h2b : ¬ (splitPath path).getLast?.getD "" = ".DS_Store" := by
          rw [← List.getLastD_eq_getLast?]; exact h2
        have hidxb : lastIdxOf '.' ((splitPath path).getLast?.getD "").data = some i := by
          rw [← List.getLastD_eq_getLast?]; exact hidx
        have hextb : memStr IGNORED_EXTENSIONS
            (lowerStr (String.mk (((splitPath path).getLast?.getD "").data.drop i))) = true := by
          rw [← List.getLastD_eq_getLast?]; exact hext
        simp [h1, h2b, hidxb, hextb]

/-- Witness for `c6_isIgnored_denylists`: its hypotheses discharged on the
concrete path `node_modules/foo/bar.js` and on `yarn.lock`'s extension. -/
theorem c6_isIgnored_denylists_witness :
    isIgnored "node_modules/foo/bar.js" = true ∧ isIgnored "yarn.lock" = true :=
  ⟨c6_isIgnored_denylists.1 "node_modules/foo/bar.js" "node_modules" (by decide) (by decide),
   c6_isIgnored_denylists.2.2.1 "yarn.lock" 4 (by decide) (by decide)⟩


/-! ## Packing-state invariant lemmas -/

theorem packInv_init : PackInv [] ⟨[], "", 0⟩ :=
  ⟨[], [], rfl, rfl, rfl, by simp⟩

theorem packInv_append {blocks : List String} {st : PackState} (h : PackInv blocks st)
    (bs : List String) (t : Nat) :
    PackInv (blocks ++ bs) ⟨st.chunks, st.currentChunk ++ String.join bs, t⟩ := by
  obtain ⟨segs, cur, hc, hcur, hflat, hne⟩ := h
  refine ⟨segs, cur ++ bs, hc, ?_, ?_, hne⟩
  · rw [hcur, join_append]
  · rw [← List.append_assoc, hflat]

theorem packInv_append_one {blocks : List String} {st : PackState} (h : PackInv blocks st)
    (b : String) (t : Nat) :
    PackInv (blocks ++ [b]) ⟨st.chunks, st.currentChunk ++ b, t⟩ := by
  have := packInv_append h [b] t
  rwa [join_singleton] at this

theorem packInv_flush {blocks : List String} {st : PackState} (h : PackInv blocks st)
    (hne : st.currentChunk ≠ "") (t : Nat) :
    PackInv blocks ⟨st.chunks ++ [st.currentChunk], "", t⟩ := by
  obtain ⟨segs, cur, hc, hcur, hflat, hnon⟩ := h
  refine ⟨segs ++ [cur], [], ?_, rfl, ?_, ?_⟩
  · simp [hc, hcur]
  · simpa using hflat
  · intro s hs
    rcases List.mem_append.mp hs with hs | hs
    · exact hnon s hs
    · simp at hs
      subst hs
      intro hnil
    -- cur = [] would make the open chunk empty
      apply hne
      rw [hcur, hnil]
      rfl

theorem packInv_flushIf {blocks : List String} {st : PackState} (h : PackInv blocks st) :
    PackInv blocks
      (if st.currentChunk.length > 0 then (⟨st.chunks ++ [st.currentChunk], "", 0⟩ : PackState)
       else st) := by
  split
  · next hpos => exact packInv_flush h ((str_length_pos_iff st.currentChunk).mp hpos) 0
  · exact h

theorem packFileStep_inv {L : Int} {blocks : List String} {st : PackState}
    (h : PackInv blocks st) (b : String) :
    PackInv (blocks ++ [b]) (packFileStep L st b) := by
  unfold packFileStep
  set st1 := if (st.currentTokens + estimateTokens b : Int) > L then
      (if st.currentChunk.length > 0 then (⟨st.chunks ++ [st.currentChunk], "", 0⟩ : PackState)
       else st)
    else st with hst1
  have h1 : PackInv blocks st1 := by
    rw [hst1]
    split
    · exact packInv_flushIf h
    · exact h
  exact packInv_append_one h1 b _

theorem foldFiles_inv {L : Int} {blocks : List String} {st : PackState}
    (h : PackInv blocks st) (bs : List String) :
    PackInv (blocks ++ bs) (bs.foldl (packFileStep L) st) := by
  induction bs generalizing blocks st with
  | nil => simpa using h
  | cons b bs ih =>
    have h2 := ih (@packFileStep_inv L _ _ h b)
    simpa using h2

theorem packGroupStep_inv {L : Int} {o : OutputOptions} {blocks : List String} {st : PackState}
    (h : PackInv blocks st) (g : List ProcessedFile) :
    PackInv (blocks ++ g.map (formatFile o)) (packGroupStep L o st g) := by
  unfold packGroupStep
  by_cases hg : g.isEmpty
  · have hgnil : g = [] := by
      cases g
      · rfl
      · simp [List.isEmpty] at hg
    subst hgnil
    simpa using h
  · simp only [hg, Bool.false_eq_true, if_false]
    split
    · exact packInv_append h (g.map (formatFile o)) _
    · have h1 : PackInv blocks
          (if st.currentChunk.length > 0 then
            (⟨st.chunks ++ [st.currentChunk], "", 0⟩ : PackState) else st) :=
        packInv_flushIf h
      split
      · exact packInv_append h1 (g.map (formatFile o)) _
      · exact foldFiles_inv h1 (g.map (formatFile o))

theorem foldDirs_inv {L : Int} {o : OutputOptions} {gs : List (String × List ProcessedFile)}
    {blocks : List String} {st : PackState} (h : PackInv blocks st) (dirs : List String) :
    PackInv (blocks ++ dirs.flatMap (fun d => ((lookupGroup gs d).getD []).map (formatFile o)))
      (dirs.foldl (dirStep L o gs) st) := by
  induction dirs generalizing blocks st with
  | nil => simpa using h
  | cons d dirs ih =>
    have hstep : PackInv (blocks ++ ((lookupGroup gs d).getD []).map (formatFile o))
        (dirStep L o gs st d) := by
      unfold dirStep
      cases hl : lookupGroup gs d with
      | none => simpa using h
      | some g => simpa using packGroupStep_inv h g
    have h2 := ih hstep
    simpa [List.append_assoc] using h2

/-! ## The master segmentation theorem for `generateChunks` -/

theorem map_flatMap_comm {α β γ : Type} (l : List α) (f : α → List β) (g : β → γ) :
    (l.flatMap f).map g = l.flatMap (fun a => (f a).map g) := by
  induction l with
  | nil => rfl
  | cons a l ih => simp [List.flatMap_cons, ih]

theorem blockList_eq_flatMap (files : List ProcessedFile) (o : OutputOptions) :
    blockList files o =
      (sortedDirsOf files).flatMap
        (fun d => ((lookupGroup (dirGroupsOf files) d).getD []).map (formatFile o)) := by
  unfold blockList packOrder
  exact map_flatMap_comm _ _ _

theorem blockList_ne_empty (files : List ProcessedFile) (o : OutputOptions) :
    ∀ b ∈ blockList files o, b ≠ "" := by
  intro b hb
  obtain ⟨f, _, rfl⟩ := List.mem_map.mp hb
  exact formatFile_ne_empty o f

theorem selectedOf_empty_blockList (files : List ProcessedFile) (o : OutputOptions)
    (h : selectedOf files = []) : blockList files o = [] := by
  unfold blockList packOrder sortedDirsOf dirGroupsOf
  rw [h]
  rfl

theorem generateChunks_eq_final (files : List ProcessedFile) (L : Int) (o : OutputOptions)
    (h : (selectedOf files).isEmpty = false) :
    generateChunks files L o =
      if ((sortedDirsOf files).foldl (dirStep L o (dirGroupsOf files))
            ⟨[], "", 0⟩).currentChunk.length > 0 then
        ((sortedDirsOf files).foldl (dirStep L o (dirGroupsOf files)) ⟨[], "", 0⟩).chunks ++
          [((sortedDirsOf files).foldl (dirStep L o (dirGroupsOf files))
              ⟨[], "", 0⟩).currentChunk]
      else ((sortedDirsOf files).foldl (dirStep L o (dirGroupsOf files)) ⟨[], "", 0⟩).chunks := by
  simp [generateChunks, h]

theorem generateChunks_segs (files : List ProcessedFile) (L : Int) (o : OutputOptions) :
    ∃ segs : List (List String),
      segs.flatten = blockList files o ∧
      generateChunks files L o = segs.map String.join ∧
      ∀ s ∈ segs, s ≠ [] := by
  cases hsel : (selectedOf files).isEmpty with
  | true =>
    have hnil : selectedOf files = [] := by
      cases h : selectedOf files
      · rfl
      · rw [h] at hsel
        simp [List.isEmpty] at hsel
    refine ⟨[], ?_, ?_, by simp⟩
    · rw [selectedOf_empty_blockList files o hnil]
      rfl
    · simp [generateChunks, hsel]
  | false =>
    have hinv := @foldDirs_inv L o (dirGroupsOf files) _ _
      packInv_init (sortedDirsOf files)
    rw [List.nil_append, ← blockList_eq_flatMap files o] at hinv
    obtain ⟨segs, cur, hc, hcur, hflat, hne⟩ := hinv
    rw [generateChunks_eq_final files L o hsel]
    by_cases hlen :
        ((sortedDirsOf files).foldl (dirStep L o (dirGroupsOf files))
          ⟨[], "", 0⟩).currentChunk.length > 0
    · refine ⟨segs ++ [cur], ?_, ?_, ?_⟩
      · simpa using hflat
      · rw [if_pos hlen, hc, hcur]
        simp
      · intro s hs
        rcases List.mem_append.mp hs with hs | hs
        · exact hne s hs
        · simp at hs
          subst hs
          intro hnil2
          have : ((sortedDirsOf files).foldl (dirStep L o (dirGroupsOf files))
              ⟨[], "", 0⟩).currentChunk = "" := by
            rw [hcur, hnil2]
            rfl
          rw [this] at hlen
          simp [String.length] at hlen
    · have hempty : ((sortedDirsOf files).foldl (dirStep L o (dirGroupsOf files))
          ⟨[], "", 0⟩).currentChunk = "" := by
        by_contra hne2
        exact hlen ((str_length_pos_iff _).mpr hne2)
      have hcurnil : cur = [] := by
        apply join_eq_empty_of_ne
        · intro s hs
          apply blockList_ne_empty files o
          rw [← hflat]
          exact List.mem_append.mpr (Or.inr hs)
        · rw [← hcur, hempty]
      refine ⟨segs, ?_, ?_, hne⟩
      · rw [hcurnil] at hflat
        simpa using hflat
      · rw [if_neg hlen, hc]

/-! ## The packer's file order is a permutation of the selected files -/

/-- Well-formedness of the insertion-ordered directory grouping. -/
def GroupsWF (gs : List (String × List ProcessedFile)) : Prop :=
  (gs.map Prod.fst).Nodup ∧ ∀ p ∈ gs, p.2 ≠ [] ∧ ∀ x ∈ p.2, dirOf x.path = p.1

theorem addToGroups_keys (gs : List (String × List ProcessedFile)) (d : String)
    (f : ProcessedFile) :
    (addToGroups gs d f).map Prod.fst =
      if d ∈ gs.map Prod.fst then gs.map Prod.fst else gs.map Prod.fst ++ [d] := by
  induction gs with
  | nil => simp [addToGroups]
  | cons p gs ih =>
    obtain ⟨d0, g0⟩ := p
    by_cases hd : d0 = d
    · subst hd
      simp [addToGroups]
    · simp only [addToGroups, if_neg hd, List.map_cons, ih]
      by_cases hmem : d ∈ gs.map Prod.fst
      · simp [hmem, Ne.symm hd]
      · have : ¬ (d = d0 ∨ d ∈ gs.map Prod.fst) := by
          rintro (h | h)
          · exact hd h.symm
          · exact hmem h
        simp [hmem, this, Ne.symm hd]

theorem addToGroups_mem {gs : List (String × List ProcessedFile)} {d : String}
    {f : ProcessedFile} {p : String × List ProcessedFile}
    (hp : p ∈ addToGroups gs d f) :
    p ∈ gs ∨ (∃ g0, (d, g0) ∈ gs ∧ p = (d, g0 ++ [f])) ∨ p = (d, [f]) := by
  induction gs with
  | nil =>
    simp [addToGroups] at hp
    right; right; exact hp
  | cons q gs ih =>
    obtain ⟨d0, g0⟩ := q
    by_cases hd : d0 = d
    · subst hd
      simp only [addToGroups, if_pos rfl] at hp
      rcases List.mem_cons.mp hp with rfl | hp
      · right; left; exact ⟨g0, by simp, rfl⟩
      · left; exact List.mem_cons_of_mem _ hp
    · simp only [addToGroups, if_neg hd] at hp
      rcases List.mem_cons.mp hp with rfl | hp
      · left; simp
      · rcases ih hp with h | ⟨g1, hg1, he⟩ | he
        · left; exact List.mem_cons_of_mem _ h
        · right; left; exact ⟨g1, List.mem_cons_of_mem _ hg1, he⟩
        · right; right; exact he

theorem addToGroups_wf {gs : List (String × List ProcessedFile)} (h : GroupsWF gs)
    (f : ProcessedFile) : GroupsWF (addToGroups gs (dirOf f.path) f) := by
  obtain ⟨hkeys, hmem⟩ := h
  constructor
  · rw [addToGroups_keys]
    split
    · exact hkeys
    · next hni =>
      rw [List.nodup_append]
      refine ⟨hkeys, List.nodup_singleton _, ?_⟩
      intro a ha had
      simp at had
      subst had
      exact hni ha
  · intro p hp
    rcases addToGroups_mem hp with h | ⟨g0, hg0, rfl⟩ | rfl
    · exact hmem p h
    · have h0 := hmem (dirOf f.path, g0) hg0
      refine ⟨by simp, ?_⟩
      intro x hx
      rcases List.mem_append.mp hx with hx | hx
      · exact h0.2 x hx
      · simp at hx
        subst hx
        rfl
    · refine ⟨by simp, ?_⟩
      intro x hx
      simp at hx
      subst hx
      rfl

theorem addToGroups_flatten (gs : List (String × List ProcessedFile)) (d : String)
    (f : ProcessedFile) :
    List.Perm ((addToGroups gs d f).map Prod.snd).flatten ((gs.map Prod.snd).flatten ++ [f]) := by
  induction gs with
  | nil => simp [addToGroups]
  | cons p gs ih =>
    obtain ⟨d0, g0⟩ := p
    by_cases hd : d0 = d
    · subst hd
      simp only [addToGroups, eq_self_iff_true, if_true, List.map_cons, List.flatten_cons,
        List.append_assoc, List.singleton_append]
      exact List.Perm.append_left g0 (List.perm_append_singleton f _).symm
    · simp only [addToGroups, if_neg hd, List.map_cons, List.flatten_cons]
      have h2 : g0 ++ ((gs.map Prod.snd).flatten ++ [f])
          = (g0 ++ (gs.map Prod.snd).flatten) ++ [f] := by simp
      rw [← h2]
      exact ih.append_left g0

theorem dirGroupsOf_wf (files : List ProcessedFile) : GroupsWF (dirGroupsOf files) := by
  unfold dirGroupsOf
  generalize selectedOf files = sel
  have base : GroupsWF ([] : List (String × List ProcessedFile)) := ⟨by simp, by simp⟩
  generalize hgs : ([] : List (String × List ProcessedFile)) = gs0 at base
  clear hgs
  induction sel generalizing gs0 with
  | nil => exact base
  | cons f sel ih => exact ih _ (addToGroups_wf base f)

theorem foldGroups_flatten (sel : List ProcessedFile)
    (gs0 : List (String × List ProcessedFile)) :
    List.Perm
      (((sel.foldl (fun gs f => addToGroups gs (dirOf f.path) f) gs0).map Prod.snd).flatten)
      ((gs0.map Prod.snd).flatten ++ sel) := by
  induction sel generalizing gs0 with
  | nil => simp
  | cons f sel ih =>
    have h1 := ih (addToGroups gs0 (dirOf f.path) f)
    have h2 := (addToGroups_flatten gs0 (dirOf f.path) f).append_right sel
    have h3 := h1.trans h2
    simp only [List.append_assoc, List.singleton_append] at h3
    simpa using h3

theorem dirGroupsOf_flatten (files : List ProcessedFile) :
    List.Perm (((dirGroupsOf files).map Prod.snd).flatten) (selectedOf files) := by
  have := foldGroups_flatten (selectedOf files) []
  simpa using this

/-! ## Lookup lemmas -/

theorem lookupGroup_mem {gs : List (String × List ProcessedFile)} {d : String}
    {g : List ProcessedFile} (h : lookupGroup gs d = some g) : (d, g) ∈ gs := by
  induction gs with
  | nil => simp [lookupGroup] at h
  | cons p gs ih =>
    obtain ⟨d0, g0⟩ := p
    by_cases hd : d0 = d
    · subst hd
      simp only [lookupGroup, eq_self_iff_true, if_true, Option.some.injEq] at h
      subst h
      simp
    · simp only [lookupGroup, if_neg hd] at h
      exact List.mem_cons_of_mem _ (ih h)

theorem mem_lookupGroup {gs : List (String × List ProcessedFile)} {d : String}
    {g : List ProcessedFile} (hkeys : (gs.map Prod.fst).Nodup) (h : (d, g) ∈ gs) :
    lookupGroup gs d = some g := by
  induction gs with
  | nil => cases h
  | cons p gs ih =>
    obtain ⟨d0, g0⟩ := p
    have hkeys' : d0 ∉ gs.map Prod.fst ∧ (gs.map Prod.fst).Nodup := by
      simpa [List.nodup_cons] using hkeys
    rcases List.mem_cons.mp h with he | hm
    · rw [Prod.mk.injEq] at he
      obtain ⟨h1, h2⟩ := he
      subst h1
      subst h2
      simp [lookupGroup]
    · have hd : d0 ≠ d := by
        intro he2
        subst he2
        exact hkeys'.1 (List.mem_map.mpr ⟨(d0, g), hm, rfl⟩)
      simp only [lookupGroup, if_neg hd]
      exact ih hkeys'.2 hm

theorem keys_map_lookup {gs : List (String × List ProcessedFile)}
    (hkeys : (gs.map Prod.fst).Nodup) :
    (gs.map Prod.fst).map (fun d => (lookupGroup gs d).getD []) = gs.map Prod.snd := by
  induction gs with
  | nil => rfl
  | cons p gs ih =>
    obtain ⟨d0, g0⟩ := p
    have hkeys' : d0 ∉ gs.map Prod.fst ∧ (gs.map Prod.fst).Nodup := by
      simpa [List.nodup_cons] using hkeys
    simp only [List.map_cons]
    congr 1
    · simp [lookupGroup]
    · rw [← ih hkeys'.2]
      apply List.map_congr_left
      intro d hd
      have hne : d0 ≠ d := fun he => hkeys'.1 (he ▸ hd)
      simp [lookupGroup, hne]

/-! ## sortDirs is a permutation -/

theorem insertDir_perm (x : String) (l : List String) :
    List.Perm (insertDir x l) (x :: l) := by
  induction l with
  | nil => simp [insertDir]
  | cons y ys ih =>
    unfold insertDir
    split
    · exact List.Perm.refl _
    · exact (ih.cons y).trans (List.Perm.swap x y ys)

theorem sortDirs_perm (l : List String) : List.Perm (sortDirs l) l := by
  unfold sortDirs
  have gen : ∀ (l acc : List String),
      List.Perm (l.foldl (fun acc d => insertDir d acc) acc) (acc ++ l) := by
    intro l
    induction l with
    | nil => simp
    | cons d l ih =>
      intro acc
      have h1 := ih (insertDir d acc)
      have h2 : List.Perm (insertDir d acc ++ l) ((d :: acc) ++ l) :=
        (insertDir_perm d acc).append_right l
      have h3 := h1.trans h2
      have h4 : List.Perm ((d :: acc) ++ l) (acc ++ d :: l) := by
        simp only [List.cons_append]
        exact (List.perm_middle).symm
      exact h3.trans h4
  simpa using gen l []

theorem packOrder_perm (files : List ProcessedFile) :
    List.Perm (packOrder files) (selectedOf files) := by
  unfold packOrder
  have hkeys := (dirGroupsOf_wf files).1
  have h1 : List.Perm (sortedDirsOf files) ((dirGroupsOf files).map Prod.fst) :=
    sortDirs_perm _
  have h2 : List.Perm
      ((sortedDirsOf files).map (fun d => (lookupGroup (dirGroupsOf files) d).getD []))
      (((dirGroupsOf files).map Prod.fst).map
        (fun d => (lookupGroup (dirGroupsOf files) d).getD [])) := h1.map _
  rw [keys_map_lookup hkeys] at h2
  have h3 := h2.flatten
  have h4 := h3.trans (dirGroupsOf_flatten files)
  rw [List.flatMap_def]
  exact h4

/-! ## Further join lemmas -/

theorem join_cons (s : String) (ss : List String) :
    String.join (s :: ss) = s ++ String.join ss := by
  apply String.ext
  simp [join_data]

theorem join_map_join (segs : List (List String)) :
    String.join (segs.map String.join) = String.join segs.flatten := by
  induction segs with
  | nil => rfl
  | cons s ss ih => rw [List.map_cons, List.flatten_cons, join_cons, ih, join_append]

/-! ## Claim C1 (round-trip, corrected) -/

/-- C1 counterexample: with the selected files in input order
`[s/b, a]`, concatenating all chunks does not equal the assembled output —
the packer reorders the root group first while the assembler preserves input
order. -/
theorem c1_roundtrip_counterexample :
    String.join (generateChunks [cxDirFile, cxRootFile] 1000 cxOpts) ≠
      generateLLMOutput [cxDirFile, cxRootFile] cxOpts := by
  decide

/-- C1 (amended): concatenating all chunks equals the assembled output of the
selected files taken in the packer's directory-grouped order (root group
first, remaining directories sorted case-insensitively, input order within
each group) — for every token limit. -/
theorem c1_roundtrip_packer_order (files : List ProcessedFile) (L : Int) (o : OutputOptions) :
    String.join (generateChunks files L o) = generateLLMOutput (packOrder files) o := by
  obtain ⟨segs, hflat, hchunks, _⟩ := generateChunks_segs files L o
  rw [hchunks, join_map_join, hflat]
  unfold generateLLMOutput
  have hfil : (packOrder files).filter (fun f => f.selected) = packOrder files := by
    apply List.filter_eq_self.mpr
    intro f hf
    have hsel : f ∈ selectedOf files := (packOrder_perm files).mem_iff.mp hf
    unfold selectedOf at hsel
    exact (List.mem_filter.mp hsel).2
  rw [hfil]
  unfold blockList
  congr 1

/-! ## Claim C3 (no failure states, nothing dropped) -/

set_option maxRecDepth 40000 in
/-- C3: for a positive token limit and at least one selected file,
`generateChunks` returns a non-empty chunk list in which every selected
file's formatted block occurs contiguously; Scenario B: a single file whose
block is estimated at 50 tokens with limit 10 yields exactly one chunk
holding that block. -/
theorem c3_no_failure_no_drop :
    (∀ (files : List ProcessedFile) (L : Int) (o : OutputOptions), 0 < L →
      selectedOf files ≠ [] →
      generateChunks files L o ≠ [] ∧
        ∀ f ∈ selectedOf files, ∃ c ∈ generateChunks files L o, isSubstrS (formatFile o f) c) ∧
    generateChunks [exOversized] 10 cxOpts = [formatFile cxOpts exOversized] ∧
    estimateTokens (formatFile cxOpts exOversized) = 50 := by
  refine ⟨?_, by decide, by decide⟩
  intro files L o _ hne
  obtain ⟨segs, hflat, hchunks, hseg⟩ := generateChunks_segs files L o
  constructor
  · intro hnil
    rw [hnil] at hchunks
    have hsegnil : segs = [] := by
      cases segs with
      | nil => rfl
      | cons s ss => simp at hchunks
    subst hsegnil
    have hbl : blockList files o = [] := by simpa using hflat.symm
    unfold blockList at hbl
    have hpo : packOrder files = [] := by
      cases hp : packOrder files with
      | nil => rfl
      | cons x xs => rw [hp] at hbl; simp at hbl
    have hsel : selectedOf files = [] := by
      have := packOrder_perm files
      rw [hpo] at this
      exact (this.symm).eq_nil
    exact hne hsel
  · intro f hf
    have hfp : f ∈ packOrder files := (packOrder_perm files).mem_iff.mpr hf
    have hbl : formatFile o f ∈ blockList files o := List.mem_map.mpr ⟨f, hfp, rfl⟩
    rw [← hflat] at hbl
    obtain ⟨seg, hsegmem, hbm⟩ := List.mem_flatten.mp hbl
    exact ⟨String.join seg, by rw [hchunks]; exact List.mem_map.mpr ⟨seg, hsegmem, rfl⟩,
      isSubstrS_join_of_mem hbm⟩

/-- Witness for `c3_no_failure_no_drop`: the universally quantified part
applied to Scenario B's input, hypotheses discharged by computation. -/
theorem c3_no_failure_no_drop_witness :
    generateChunks [exOversized] 10 cxOpts ≠ [] ∧
      ∀ f ∈ selectedOf [exOversized], ∃ c ∈ generateChunks [exOversized] 10 cxOpts,
        isSubstrS (formatFile cxOpts f) c :=
  c3_no_failure_no_drop.1 [exOversized] 10 cxOpts (by decide) (by decide)

/-! ## Behaviour with a non-positive token limit (claim C9) -/

theorem estimateTokens_pos {s : String} (h : s ≠ "") : 1 ≤ estimateTokens s := by
  unfold estimateTokens
  have h1 : 0 < s.data.length := List.length_pos.mpr ((str_ne_empty_iff s).mp h)
  omega

theorem packFileStep_eq (L : Int) (st : PackState) (b : String) :
    packFileStep L st b =
      ⟨(if (st.currentTokens + estimateTokens b : Int) > L then flushIfSt st else st).chunks,
       (if (st.currentTokens + estimateTokens b : Int) > L then flushIfSt st
        else st).currentChunk ++ b,
       (if (st.currentTokens + estimateTokens b : Int) > L then flushIfSt st
        else st).currentTokens + estimateTokens b⟩ := rfl

theorem packGroupStep_eq (L : Int) (o : OutputOptions) (st : PackState)
    (g : List ProcessedFile) :
    packGroupStep L o st g =
      if g.isEmpty then st
      else
        if (st.currentTokens + groupTokens o g : Int) ≤ L then
          ⟨st.chunks, st.currentChunk ++ String.join (g.map (formatFile o)),
           st.currentTokens + groupTokens o g⟩
        else
          if (groupTokens o g : Int) ≤ L then
            ⟨(flushIfSt st).chunks,
             (flushIfSt st).currentChunk ++ String.join (g.map (formatFile o)),
             (flushIfSt st).currentTokens + groupTokens o g⟩
          else (g.map (formatFile o)).foldl (packFileStep L) (flushIfSt st) := rfl

theorem packFileStep_nonpos {L : Int} (hL : L ≤ 0) (st : PackState) {b : String}
    (hb : b ≠ "") :
    packFileStep L st b =
      ⟨(flushIfSt st).chunks, b, (flushIfSt st).currentTokens + estimateTokens b⟩ := by
  have h1 := estimateTokens_pos hb
  have hcond : (st.currentTokens + estimateTokens b : Int) > L := by
    have h3 : (0 : Int) ≤ (st.currentTokens : Int) := Int.ofNat_nonneg _
    have h4 : (1 : Int) ≤ (estimateTokens b : Int) := by exact_mod_cast h1
    omega
  rw [packFileStep_eq, if_pos hcond]
  unfold flushIfSt
  by_cases hcur : st.currentChunk.length > 0
  · simp [hcur]
  · have hcur0 : st.currentChunk = "" := by
      by_contra h2
      exact hcur ((str_length_pos_iff _).mpr h2)
    simp [hcur, hcur0]

theorem foldFiles_nonpos {L : Int} (hL : L ≤ 0) (bs : List String) :
    ∀ st : PackState, (∀ b ∈ bs, b ≠ "") → bs ≠ [] →
      ∃ (t : Nat) (lastb : String) (rest : List String), bs = rest ++ [lastb] ∧
        bs.foldl (packFileStep L) st = ⟨(flushIfSt st).chunks ++ rest, lastb, t⟩ := by
  induction bs with
  | nil => intro st _ h; exact absurd rfl h
  | cons b bs ih =>
    intro st hne _
    have hbne : b ≠ "" := hne b (by simp)
    rw [List.foldl_cons, packFileStep_nonpos hL st hbne]
    by_cases hbs : bs = []
    · subst hbs
      exact ⟨(flushIfSt st).currentTokens + estimateTokens b, b, [], rfl, by simp⟩
    · obtain ⟨t, lastb, rest, hsplit, hfold⟩ :=
        ih _ (fun x hx => hne x (by simp [hx])) hbs
      rw [hfold]
      refine ⟨t, lastb, b :: rest, by rw [hsplit]; rfl, ?_⟩
      have hpos : (0 : Nat) < b.length := (str_length_pos_iff b).mpr hbne
      have hfl : flushIfSt ⟨(flushIfSt st).chunks, b,
          (flushIfSt st).currentTokens + estimateTokens b⟩ =
          ⟨(flushIfSt st).chunks ++ [b], "", 0⟩ := by
        unfold flushIfSt
        simp [hpos]
      rw [hfl]
      simp [List.append_assoc]

theorem foldl_tokens_ge (l : List String) (n : Nat) :
    n ≤ l.foldl (fun acc s => acc + estimateTokens s) n := by
  induction l generalizing n with
  | nil => simp
  | cons s l ih =>
    simp only [List.foldl_cons]
    exact le_trans (Nat.le_add_right n (estimateTokens s)) (ih (n + estimateTokens s))

theorem groupTokens_pos {o : OutputOptions} {g : List ProcessedFile} (hg : g ≠ []) :
    1 ≤ groupTokens o g := by
  cases g with
  | nil => exact absurd rfl hg
  | cons f g =>
    unfold groupTokens
    simp only [List.map_cons, List.foldl_cons]
    have h1 := estimateTokens_pos (formatFile_ne_empty o f)
    have h2 := foldl_tokens_ge (g.map (formatFile o)) (0 + estimateTokens (formatFile o f))
    omega

theorem packGroupStep_nonpos {L : Int} (hL : L ≤ 0) {o : OutputOptions} (st : PackState)
    {g : List ProcessedFile} (hg : g ≠ []) :
    ∃ (t : Nat) (lastb : String) (rest : List String),
      g.map (formatFile o) = rest ++ [lastb] ∧
      packGroupStep L o st g = ⟨(flushIfSt st).chunks ++ rest, lastb, t⟩ := by
  have hgisEmpty : g.isEmpty = false := by
    cases g
    · exact absurd rfl hg
    · rfl
  have htot := @groupTokens_pos o _ hg
  have h4 : (1 : Int) ≤ (groupTokens o g : Int) := by exact_mod_cast htot
  have hcond1 : ¬ ((st.currentTokens + groupTokens o g : Int) ≤ L) := by
    have h3 : (0 : Int) ≤ (st.currentTokens : Int) := Int.ofNat_nonneg _
    omega
  have hcond2 : ¬ ((groupTokens o g : Int) ≤ L) := by omega
  rw [packGroupStep_eq, hgisEmpty]
  simp only [Bool.false_eq_true, if_false]
  rw [if_neg hcond1, if_neg hcond2]
  have hblocks_ne : ∀ b ∈ g.map (formatFile o), b ≠ "" := by
    intro b hb
    obtain ⟨f, _, rfl⟩ := List.mem_map.mp hb
    exact formatFile_ne_empty o f
  have hbs_ne : g.map (formatFile o) ≠ [] := by
    cases g
    · exact absurd rfl hg
    · simp
  obtain ⟨t, lastb, rest, hsplit, hfold⟩ :=
    foldFiles_nonpos hL (g.map (formatFile o)) (flushIfSt st) hblocks_ne hbs_ne
  rw [hfold]
  refine ⟨t, lastb, rest, hsplit, ?_⟩
  have hlen : ¬ (("" : String).length > 0) := by decide
  have hid : flushIfSt (flushIfSt st) = flushIfSt st := by
    by_cases hcur : st.currentChunk.length > 0
    · have h1 : flushIfSt st = ⟨st.chunks ++ [st.currentChunk], "", 0⟩ := by
        unfold flushIfSt
        rw [if_pos hcur]
      rw [h1]
      unfold flushIfSt
      simp [hlen]
    · have h1 : flushIfSt st = st := by
        unfold flushIfSt
        rw [if_neg hcur]
      rw [h1, h1]
  rw [hid]

theorem foldDirs_nonpos {L : Int} (hL : L ≤ 0) {o : OutputOptions}
    {gs : List (String × List ProcessedFile)} (dirs : List String) :
    ∀ st : PackState, (∀ d ∈ dirs, ∃ g, lookupGroup gs d = some g ∧ g ≠ []) → dirs ≠ [] →
      ∃ (t : Nat) (lastb : String) (rest : List String),
        dirs.flatMap (fun d => ((lookupGroup gs d).getD []).map (formatFile o)) =
          rest ++ [lastb] ∧
        dirs.foldl (dirStep L o gs) st = ⟨(flushIfSt st).chunks ++ rest, lastb, t⟩ := by
  induction dirs with
  | nil => intro st _ h; exact absurd rfl h
  | cons d dirs ih =>
    intro st hgood _
    obtain ⟨g, hlook, hgne⟩ := hgood d (by simp)
    rw [List.foldl_cons]
    have hstep0 : dirStep L o gs st d = packGroupStep L o st g := by
      unfold dirStep
      rw [hlook]
    rw [hstep0]
    obtain ⟨t1, lastb1, rest1, hsplit1, hstep⟩ := @packGroupStep_nonpos L hL o st _ hgne
    rw [hstep]
    by_cases hdirs : dirs = []
    · subst hdirs
      refine ⟨t1, lastb1, rest1, ?_, by simp⟩
      simp [hlook, hsplit1]
    · obtain ⟨t2, lastb2, rest2, hsplit2, hfold⟩ :=
        ih _ (fun x hx => hgood x (by simp [hx])) hdirs
      rw [hfold]
      have hlast1 : lastb1 ≠ "" := by
        have hmem : lastb1 ∈ g.map (formatFile o) := by
          rw [hsplit1]
          simp
        obtain ⟨f, _, rfl⟩ := List.mem_map.mp hmem
        exact formatFile_ne_empty o f
      have hpos : (0 : Nat) < lastb1.length := (str_length_pos_iff lastb1).mpr hlast1
      have hfl : flushIfSt ⟨(flushIfSt st).chunks ++ rest1, lastb1, t1⟩ =
          ⟨((flushIfSt st).chunks ++ rest1) ++ [lastb1], "", 0⟩ := by
        unfold flushIfSt
        simp [hpos]
      rw [hfl]
      refine ⟨t2, lastb2, rest1 ++ lastb1 :: rest2, ?_, ?_⟩
      · rw [List.flatMap_cons, hlook]
        simp [hsplit1, hsplit2, List.append_assoc]
      · simp [List.append_assoc]

/-! ## Claim C9 (tokenLimit ≤ 0 still succeeds, one chunk per file) -/

/-- C9: invoking `generateChunks` with a non-positive token limit and at
least one selected file returns (without failing) exactly the per-file
formatted blocks, one chunk per selected file, in the packer's
directory-sorted order. -/
theorem c9_nonpositive_limit (files : List ProcessedFile) (L : Int) (o : OutputOptions)
    (hL : L ≤ 0) (hne : selectedOf files ≠ []) :
    generateChunks files L o = blockList files o ∧
    List.Perm (packOrder files) (selectedOf files) ∧
    (generateChunks files L o).length = (selectedOf files).length := by
  have hsel : (selectedOf files).isEmpty = false := by
    cases h : selectedOf files
    · exact absurd h hne
    · rfl
  have hgood : ∀ d ∈ sortedDirsOf files,
      ∃ g, lookupGroup (dirGroupsOf files) d = some g ∧ g ≠ [] := by
    intro d hd
    have hdk : d ∈ (dirGroupsOf files).map Prod.fst := (sortDirs_perm _).mem_iff.mp hd
    obtain ⟨p, hmem, he⟩ := List.mem_map.mp hdk
    obtain ⟨d', g⟩ := p
    have he' : d' = d := he
    subst he'
    exact ⟨g, mem_lookupGroup (dirGroupsOf_wf files).1 hmem,
      ((dirGroupsOf_wf files).2 (d', g) hmem).1⟩
  have hdirs_ne : sortedDirsOf files ≠ [] := by
    intro h0
    have hkeysnil : (dirGroupsOf files).map Prod.fst = [] := by
      have hp := sortDirs_perm ((dirGroupsOf files).map Prod.fst)
      unfold sortedDirsOf at h0
      rw [h0] at hp
      exact (hp.symm).eq_nil
    have hgnil : dirGroupsOf files = [] := by
      cases hg : dirGroupsOf files
      · rfl
      · rw [hg] at hkeysnil
        simp at hkeysnil
    have hflat := dirGroupsOf_flatten files
    rw [hgnil] at hflat
    simp at hflat
    exact hne hflat
  have hmain : generateChunks files L o = blockList files o := by
    rw [generateChunks_eq_final files L o hsel]
    obtain ⟨t, lastb, rest, hsplit, hfold⟩ :=
      foldDirs_nonpos hL (sortedDirsOf files) ⟨[], "", 0⟩ hgood hdirs_ne
    rw [hfold]
    have hbl : blockList files o = rest ++ [lastb] := by
      rw [blockList_eq_flatMap]
      exact hsplit
    have hlast_ne : lastb ≠ "" := by
      apply blockList_ne_empty files o
      rw [hbl]
      simp
    have hpos : (0 : Nat) < lastb.length := (str_length_pos_iff lastb).mpr hlast_ne
    have hfl0 : flushIfSt ⟨[], "", 0⟩ = ⟨[], "", 0⟩ := by
      unfold flushIfSt
      simp
    rw [hfl0] at hfold ⊢
    simp only [hpos, if_pos]
    rw [hbl]
    rfl
  refine ⟨hmain, packOrder_perm files, ?_⟩
  rw [hmain]
  unfold blockList
  rw [List.length_map]
  exact (packOrder_perm files).length_eq

/-- Witness for `c9_nonpositive_limit`: the theorem applied to a concrete
two-file input with token limit 0. -/
theorem c9_nonpositive_limit_witness :
    generateChunks [cxDirFile, cxRootFile] 0 cxOpts =
        blockList [cxDirFile, cxRootFile] cxOpts ∧
      List.Perm (packOrder [cxDirFile, cxRootFile]) (selectedOf [cxDirFile, cxRootFile]) ∧
      (generateChunks [cxDirFile, cxRootFile] 0 cxOpts).length =
        (selectedOf [cxDirFile, cxRootFile]).length :=
  c9_nonpositive_limit [cxDirFile, cxRootFile] 0 cxOpts (by decide) (by decide)

/-! ## Claim C10 (the two block builders agree; chunks are made of its blocks) -/

theorem map_eq_append_split {α β : Type} {f : α → β} {l : List α} {a b : List β}
    (h : l.map f = a ++ b) : ∃ l₁ l₂, l = l₁ ++ l₂ ∧ l₁.map f = a ∧ l₂.map f = b := by
  induction a generalizing l with
  | nil => exact ⟨[], l, rfl, rfl, by simpa using h⟩
  | cons x a ih =>
    cases l with
    | nil => simp at h
    | cons y l =>
      simp only [List.map_cons, List.cons_append, List.cons.injEq] at h
      obtain ⟨l₁, l₂, rfl, hm1, hm2⟩ := ih h.2
      exact ⟨y :: l₁, l₂, rfl, by simp [h.1, hm1], hm2⟩

/-- C10: the chunker's internal `formatFile` builds character-for-character
the same block as `generateLLMOutput`'s map callback, and every chunk is the
concatenation of the blocks of a contiguous run of packer-ordered selected
files, each of which occurs in the single assembled output. -/
theorem c10_format_refinement :
    (∀ (o : OutputOptions) (f : ProcessedFile), formatFile o f = assembleFileBlock o f) ∧
    (∀ (files : List ProcessedFile) (L : Int) (o : OutputOptions) (c : String),
      c ∈ generateChunks files L o →
      ∃ fs : List ProcessedFile, fs <:+: packOrder files ∧
        c = String.join (fs.map (assembleFileBlock o)) ∧
        ∀ f ∈ fs, isSubstrS (assembleFileBlock o f) (generateLLMOutput files o)) := by
  refine ⟨formatFile_eq_assembleFileBlock, ?_⟩
  intro files L o c hc
  obtain ⟨segs, hflat, hchunks, _⟩ := generateChunks_segs files L o
  rw [hchunks] at hc
  obtain ⟨seg, hsegmem, rfl⟩ := List.mem_map.mp hc
  obtain ⟨pre, post, hsegs⟩ := List.append_of_mem hsegmem
  have hmap : (packOrder files).map (formatFile o) = (pre.flatten ++ seg) ++ post.flatten := by
    have h1 : blockList files o = pre.flatten ++ (seg ++ post.flatten) := by
      rw [← hflat, hsegs]
      simp
    unfold blockList at h1
    rw [h1]
    simp
  obtain ⟨l₁, l₂, hl, hm1, hm2⟩ := map_eq_append_split hmap
  obtain ⟨l₁a, fs, hl1, hm1a, hmfs⟩ := map_eq_append_split hm1
  refine ⟨fs, ?_, ?_, ?_⟩
  · rw [hl, hl1]
    exact ⟨l₁a, l₂, by simp⟩
  · rw [← hmfs]
    congr 1
  · intro f hf
    have hfo : f ∈ packOrder files := by
      rw [hl, hl1]
      simp [hf]
    have hfsel : f ∈ selectedOf files := (packOrder_perm files).mem_iff.mp hfo
    unfold generateLLMOutput
    apply isSubstrS_join_of_mem
    refine List.mem_map.mpr ⟨f, ?_, rfl⟩
    unfold selectedOf at hfsel
    exact hfsel

/-- Witness for `c10_format_refinement`: its chunk-membership hypothesis
discharged on the concrete two-file input's only chunk. -/
theorem c10_format_refinement_witness :
    ∃ fs : List ProcessedFile, fs <:+: packOrder [cxDirFile, cxRootFile] ∧
      formatFile cxOpts cxRootFile ++ formatFile cxOpts cxDirFile =
        String.join (fs.map (assembleFileBlock cxOpts)) ∧
      ∀ f ∈ fs, isSubstrS (assembleFileBlock cxOpts f)
        (generateLLMOutput [cxDirFile, cxRootFile] cxOpts) :=
  c10_format_refinement.2 [cxDirFile, cxRootFile] 1000 cxOpts
    (formatFile cxOpts cxRootFile ++ formatFile cxOpts cxDirFile) (by decide)

/-! ## Claim C2 (atomic fit with inclusive boundaries) -/

theorem join_blocks_ne_empty {o : OutputOptions} {g : List ProcessedFile} (hg : g ≠ []) :
    String.join (g.map (formatFile o)) ≠ "" := by
  cases g with
  | nil => exact absurd rfl hg
  | cons f g =>
    rw [List.map_cons, join_cons, str_ne_empty_iff, str_data_append]
    intro hcontra
    exact (str_ne_empty_iff _).mp (formatFile_ne_empty o f) (List.append_eq_nil.mp hcontra).1

theorem packGroupStep_fits {L : Int} {o : OutputOptions} (st : PackState)
    {g : List ProcessedFile} (hg : g ≠ []) (hfit : (groupTokens o g : Int) ≤ L) :
    ∃ p, (packGroupStep L o st g).currentChunk = p ++ String.join (g.map (formatFile o)) := by
  have hgisEmpty : g.isEmpty = false := by
    cases g
    · exact absurd rfl hg
    · rfl
  rw [packGroupStep_eq, hgisEmpty]
  simp only [Bool.false_eq_true, if_false]
  by_cases h1 : (st.currentTokens + groupTokens o g : Int) ≤ L
  · rw [if_pos h1]
    exact ⟨st.currentChunk, rfl⟩
  · rw [if_neg h1, if_pos hfit]
    exact ⟨(flushIfSt st).currentChunk, rfl⟩

theorem groupIntact_append {s : String} {st : PackState} (h : GroupIntact s st)
    (x : String) (t : Nat) : GroupIntact s ⟨st.chunks, st.currentChunk ++ x, t⟩ := by
  rcases h with ⟨c, hc, hsub⟩ | hsub
  · exact Or.inl ⟨c, hc, hsub⟩
  · exact Or.inr (isSubstrS_append_right x hsub)

theorem groupIntact_flushIf {s : String} {st : PackState} (h : GroupIntact s st) :
    GroupIntact s (flushIfSt st) := by
  unfold flushIfSt
  split
  · rcases h with ⟨c, hc, hsub⟩ | hsub
    · exact Or.inl ⟨c, by simp [hc], hsub⟩
    · exact Or.inl ⟨st.currentChunk, by simp, hsub⟩
  · exact h

theorem groupIntact_fileStep {s : String} {st : PackState} (h : GroupIntact s st)
    (L : Int) (b : String) : GroupIntact s (packFileStep L st b) := by
  rw [packFileStep_eq]
  set st1 := if (st.currentTokens + estimateTokens b : Int) > L then flushIfSt st else st
    with hst1
  have h1 : GroupIntact s st1 := by
    rw [hst1]
    split
    · exact groupIntact_flushIf h
    · exact h
  exact groupIntact_append h1 b _

theorem groupIntact_foldFiles {s : String} {L : Int} (bs : List String) :
    ∀ st : PackState, GroupIntact s st → GroupIntact s (bs.foldl (packFileStep L) st) := by
  induction bs with
  | nil => intro st h; exact h
  | cons b bs ih =>
    intro st h
    rw [List.foldl_cons]
    exact ih _ (groupIntact_fileStep h L b)

theorem groupIntact_groupStep {s : String} {L : Int} {o : OutputOptions} {st : PackState}
    (h : GroupIntact s st) (g : List ProcessedFile) :
    GroupIntact s (packGroupStep L o st g) := by
  rw [packGroupStep_eq]
  by_cases hg : g.isEmpty
  · rw [if_pos hg]
    exact h
  · rw [if_neg hg]
    by_cases h1 : (st.currentTokens + groupTokens o g : Int) ≤ L
    · rw [if_pos h1]
      exact groupIntact_append h _ _
    · rw [if_neg h1]
      by_cases h2 : (groupTokens o g : Int) ≤ L
      · rw [if_pos h2]
        exact groupIntact_append (groupIntact_flushIf h) _ _
      · rw [if_neg h2]
        exact groupIntact_foldFiles _ _ (groupIntact_flushIf h)

theorem groupIntact_foldDirs {s : String} {L : Int} {o : OutputOptions}
    {gs : List (String × List ProcessedFile)} (dirs : List String) :
    ∀ st : PackState, GroupIntact s st → GroupIntact s (dirs.foldl (dirStep L o gs) st) := by
  induction dirs with
  | nil => intro st h; exact h
  | cons d dirs ih =>
    intro st h
    rw [List.foldl_cons]
    apply ih
    unfold dirStep
    cases lookupGroup gs d with
    | none => exact h
    | some g => exact groupIntact_groupStep h g

theorem groupIntact_final {s : String} (hs : s ≠ "") {st : PackState} (h : GroupIntact s st) :
    ∃ c ∈ (if st.currentChunk.length > 0 then st.chunks ++ [st.currentChunk] else st.chunks),
      isSubstrS s c := by
  rcases h with ⟨c, hc, hsub⟩ | hsub
  · split
    · exact ⟨c, by simp [hc], hsub⟩
    · exact ⟨c, hc, hsub⟩
  · have hne : st.currentChunk ≠ "" := by
      obtain ⟨p, q, he⟩ := hsub
      intro h0
      rw [h0] at he
      have hd : ([] : List Char) = p.data ++ s.data ++ q.data := by
        have := congrArg String.data he
        simpa [str_data_append] using this
      have hd2 : ([] : List Char).length = (p.data ++ s.data ++ q.data).length :=
        congrArg List.length hd
      rw [List.length_append, List.length_append] at hd2
      simp only [List.length_nil] at hd2
      have : s.data = [] := List.eq_nil_of_length_eq_zero (by omega)
      exact (str_ne_empty_iff s).mp hs this
    rw [if_pos ((str_length_pos_iff _).mpr hne)]
    exact ⟨st.currentChunk, by simp, hsub⟩

set_option maxRecDepth 80000 in
/-- C2: a directory group of the selected files whose estimated total fits
under the limit is packed as one contiguous run inside a single chunk, and
the fit comparisons are inclusive: a group (resp. a block in the oversized
fallback) whose size exactly equals the remaining capacity stays in the
current chunk — witnessed by two exact-fit inputs at limit 40 (20+20 tokens
in one chunk; a 61-token directory split as 20+20 then 21). -/
theorem c2_atomic_fit_inclusive :
    (∀ (files : List ProcessedFile) (L : Int) (o : OutputOptions)
      (d : String) (g : List ProcessedFile), 0 < L →
      (d, g) ∈ dirGroupsOf files → (groupTokens o g : Int) ≤ L →
      ∃ c ∈ generateChunks files L o, isSubstrS (String.join (g.map (formatFile o))) c) ∧
    generateChunks [exFitR, exFitD] 40 cxOpts =
      [formatFile cxOpts exFitR ++ formatFile cxOpts exFitD] ∧
    generateChunks [exFitR, exFitD] 39 cxOpts =
      [formatFile cxOpts exFitR, formatFile cxOpts exFitD] ∧
    generateChunks [exSplitX, exSplitY, exSplitZ] 40 cxOpts =
      [formatFile cxOpts exSplitX ++ formatFile cxOpts exSplitY, formatFile cxOpts exSplitZ] := by
  refine ⟨?_, by decide, by decide, by decide⟩
  intro files L o d g _ hmem hfit
  have hwf := dirGroupsOf_wf files
  have hgne : g ≠ [] := (hwf.2 (d, g) hmem).1
  have hself : (selectedOf files).isEmpty = false := by
    obtain ⟨f, hf⟩ := List.exists_mem_of_ne_nil g hgne
    have hflat : f ∈ ((dirGroupsOf files).map Prod.snd).flatten :=
      List.mem_flatten.mpr ⟨g, List.mem_map.mpr ⟨(d, g), hmem, rfl⟩, hf⟩
    have hfs : f ∈ selectedOf files := (dirGroupsOf_flatten files).mem_iff.mp hflat
    cases h : selectedOf files
    · rw [h] at hfs
      cases hfs
    · rfl
  rw [generateChunks_eq_final files L o hself]
  have hdk : d ∈ sortedDirsOf files :=
    (sortDirs_perm _).mem_iff.mpr (List.mem_map.mpr ⟨(d, g), hmem, rfl⟩)
  obtain ⟨l1, l2, hsplit⟩ := List.append_of_mem hdk
  rw [hsplit, List.foldl_append, List.foldl_cons]
  have hlook : lookupGroup (dirGroupsOf files) d = some g := mem_lookupGroup hwf.1 hmem
  have hstep : dirStep L o (dirGroupsOf files)
      (l1.foldl (dirStep L o (dirGroupsOf files)) ⟨[], "", 0⟩) d =
      packGroupStep L o (l1.foldl (dirStep L o (dirGroupsOf files)) ⟨[], "", 0⟩) g := by
    unfold dirStep
    rw [hlook]
  rw [hstep]
  have hintact : GroupIntact (String.join (g.map (formatFile o)))
      (packGroupStep L o (l1.foldl (dirStep L o (dirGroupsOf files)) ⟨[], "", 0⟩) g) := by
    obtain ⟨p, hp⟩ := packGroupStep_fits _ hgne hfit
    exact Or.inr ⟨p, "", by rw [hp]; simp⟩
  exact groupIntact_final (join_blocks_ne_empty hgne) (groupIntact_foldDirs l2 _ hintact)

/-- Witness for `c2_atomic_fit_inclusive`: the universal part applied to the
exact-fit input's directory group `d`. -/
theorem c2_atomic_fit_inclusive_witness :
    ∃ c ∈ generateChunks [exFitR, exFitD] 40 cxOpts,
      isSubstrS (String.join ([exFitD].map (formatFile cxOpts))) c :=
  c2_atomic_fit_inclusive.1 [exFitR, exFitD] 40 cxOpts "d" [exFitD]
    (by decide) (by decide) (by decide)

/-! ## Claim C5 (root group first; corrected for the assembler) -/

theorem dirBefore_dot_left (y : String) : dirBefore "." y = true := by
  simp [dirBefore]

theorem dirBefore_dot_right {x : String} (hx : x ≠ ".") : dirBefore x "." = false := by
  simp [dirBefore, hx]

theorem insertDir_dot (l : List String) : insertDir "." l = "." :: l := by
  cases l with
  | nil => rfl
  | cons y ys =>
    unfold insertDir
    rw [if_pos (dirBefore_dot_left y)]

theorem insertDir_ne_dot {d : String} (hd : d ≠ ".") (r : List String) :
    insertDir d ("." :: r) = "." :: insertDir d r := by
  conv_lhs => rw [insertDir]
  rw [if_neg (by simp [dirBefore_dot_right hd])]

theorem foldl_insert_dot : ∀ (l : List String), "." ∉ l → ∀ (r : List String), "." ∉ r →
    ∃ r2, l.foldl (fun a d => insertDir d a) ("." :: r) = "." :: r2 ∧ "." ∉ r2 := by
  intro l
  induction l with
  | nil =>
    intro _ r hr
    exact ⟨r, rfl, hr⟩
  | cons d l ih =>
    intro hnl r hr
    have hd : d ≠ "." := fun h => hnl (by simp [h])
    rw [List.foldl_cons, insertDir_ne_dot hd]
    apply ih (fun h => hnl (by simp [h]))
    intro hmem
    rcases List.mem_cons.mp ((insertDir_perm d r).mem_iff.mp hmem) with h | h
    · exact hd h.symm
    · exact hr h

theorem sortDirs_dot {l : List String} (hmem : "." ∈ l) (hnd : l.Nodup) :
    ∃ r, sortDirs l = "." :: r ∧ "." ∉ r := by
  obtain ⟨l1, l2, rfl⟩ := List.append_of_mem hmem
  have hn2 : "." ∉ l2 := by
    have h2 : ("." :: l2).Nodup := hnd.sublist (List.sublist_append_right l1 _)
    exact (List.nodup_cons.mp h2).1
  have hn1 : "." ∉ l1 := by
    intro h
    have hdisj := List.disjoint_of_nodup_append hnd
    exact hdisj h (by simp)
  unfold sortDirs
  rw [List.foldl_append, List.foldl_cons]
  have hacc1 : "." ∉ List.foldl (fun a d => insertDir d a) [] l1 := by
    intro h
    exact hn1 ((sortDirs_perm l1).mem_iff.mp h)
  rw [insertDir_dot]
  exact foldl_insert_dot l2 hn2 _ hacc1

theorem lastIdxOf_mem {c : Char} : ∀ {cs : List Char} {i : Nat},
    lastIdxOf c cs = some i → c ∈ cs := by
  intro cs
  induction cs with
  | nil => intro i h; simp [lastIdxOf] at h
  | cons x xs ih =>
    intro i h
    unfold lastIdxOf at h
    cases hrec : lastIdxOf c xs with
    | some j => exact List.mem_cons_of_mem _ (ih hrec)
    | none =>
      rw [hrec] at h
      by_cases hx : x = c
      · simp [hx]
      · rw [if_neg hx] at h
        cases h

theorem dirOf_eq_dot_of_no_slash {p : String} (h : '/' ∉ p.data) : dirOf p = "." := by
  unfold dirOf
  cases hidx : lastIdxOf '/' p.data with
  | none => rfl
  | some i => exact absurd (lastIdxOf_mem hidx) h

theorem slash_mem_of_dirOf_ne {p : String} (h : dirOf p ≠ ".") : '/' ∈ p.data := by
  by_contra h2
  exact h (dirOf_eq_dot_of_no_slash h2)

theorem packOrder_split (files : List ProcessedFile) :
    ∃ rfs dfs : List ProcessedFile, packOrder files = rfs ++ dfs ∧
      (∀ f ∈ rfs, dirOf f.path = ".") ∧ (∀ f ∈ dfs, dirOf f.path ≠ ".") := by
  have hwf := dirGroupsOf_wf files
  by_cases hdot : "." ∈ (dirGroupsOf files).map Prod.fst
  · obtain ⟨r, hsort, hnr⟩ := sortDirs_dot hdot hwf.1
    refine ⟨(lookupGroup (dirGroupsOf files) ".").getD [],
            r.flatMap (fun d => (lookupGroup (dirGroupsOf files) d).getD []), ?_, ?_, ?_⟩
    · unfold packOrder sortedDirsOf
      rw [hsort, List.flatMap_cons]
    · intro f hf
      cases hl : lookupGroup (dirGroupsOf files) "." with
      | none =>
        rw [hl] at hf
        cases hf
      | some g =>
        rw [hl] at hf
        exact (hwf.2 (".", g) (lookupGroup_mem hl)).2 f hf
    · intro f hf
      obtain ⟨d, hd, hfd⟩ := List.mem_flatMap.mp hf
      cases hl : lookupGroup (dirGroupsOf files) d with
      | none =>
        rw [hl] at hfd
        cases hfd
      | some g =>
        rw [hl] at hfd
        have hdir := (hwf.2 (d, g) (lookupGroup_mem hl)).2 f hfd
        rw [hdir]
        intro h
        exact hnr (h ▸ hd)
  · refine ⟨[], packOrder files, by simp, by simp, ?_⟩
    intro f hf
    unfold packOrder at hf
    obtain ⟨d, hd, hfd⟩ := List.mem_flatMap.mp hf
    have hdk : d ∈ (dirGroupsOf files).map Prod.fst := (sortDirs_perm _).mem_iff.mp hd
    cases hl : lookupGroup (dirGroupsOf files) d with
    | none =>
      rw [hl] at hfd
      cases hfd
    | some g =>
      rw [hl] at hfd
      have hdir := (hwf.2 (d, g) (lookupGroup_mem hl)).2 f hfd
      rw [hdir]
      intro h
      exact hdot (h ▸ hdk)

/-- C5 counterexample: `generateLLMOutput` preserves input order, so with the
non-root file `s/b` listed first the assembled output places its block before
the selected root file `a`'s block, refuting the claim for the assembler. -/
theorem c5_root_first_counterexample :
    generateLLMOutput [cxDirFile, cxRootFile] cxOpts =
        assembleFileBlock cxOpts cxDirFile ++ assembleFileBlock cxOpts cxRootFile ∧
      assembleFileBlock cxOpts cxDirFile ++ assembleFileBlock cxOpts cxRootFile ≠
        assembleFileBlock cxOpts cxRootFile ++ assembleFileBlock cxOpts cxDirFile ∧
      '/' ∈ cxDirFile.path.data ∧ '/' ∉ cxRootFile.path.data ∧
      cxDirFile.selected = true ∧ cxRootFile.selected = true := by
  decide

/-- C5 (amended): in the first chunk of `generateChunks` every block of the
root directory group (directory key `.`, which includes every path without a
`/`) precedes every block of a non-root group — the first chunk is the
concatenation of a run of root-group blocks followed by a run of non-root
blocks; paths without `/` always have key `.`; `generateLLMOutput` instead
preserves input order, splitting around any decomposition of the selected
list. -/
theorem c5_root_first_chunks :
    (∀ (files : List ProcessedFile) (L : Int) (o : OutputOptions) (c : String),
      (generateChunks files L o).head? = some c →
      ∃ roots dirs : List ProcessedFile,
        c = String.join ((roots ++ dirs).map (formatFile o)) ∧
        (∀ f ∈ roots, dirOf f.path = ".") ∧
        (∀ f ∈ dirs, dirOf f.path ≠ "." ∧ '/' ∈ f.path.data) ∧
        (∀ f ∈ roots ++ dirs, f ∈ selectedOf files)) ∧
    (∀ p : String, '/' ∉ p.data → dirOf p = ".") ∧
    (∀ (files : List ProcessedFile) (o : OutputOptions) (rs ds : List ProcessedFile),
      selectedOf files = rs ++ ds →
      generateLLMOutput files o =
        String.join (rs.map (assembleFileBlock o)) ++
          String.join (ds.map (assembleFileBlock o))) := by
  refine ⟨?_, fun p h => dirOf_eq_dot_of_no_slash h, ?_⟩
  · intro files L o c hc
    obtain ⟨segs, hflat, hchunks, _⟩ := generateChunks_segs files L o
    rw [hchunks] at hc
    cases segs with
    | nil => cases hc
    | cons s0 rest =>
      simp only [List.map_cons, List.head?_cons, Option.some.injEq] at hc
      subst hc
      have hpre : s0 ++ rest.flatten = blockList files o := by
        rw [← hflat]
        simp
      obtain ⟨rfs, dfs, hsplit, hroots, hdirs⟩ := packOrder_split files
      have hmap : (packOrder files).map (formatFile o) = s0 ++ rest.flatten := by
        unfold blockList at hpre
        rw [hpre]
      obtain ⟨l₁, l₂, hl, hm1, hm2⟩ := map_eq_append_split hmap
      -- l₁ is a leading run of packOrder = rfs ++ dfs
      have hl1pre : l₁ = (rfs ++ dfs).take l₁.length := by
        rw [← hsplit, hl]
        exact (List.take_left l₁ l₂).symm
      refine ⟨rfs.take l₁.length, dfs.take (l₁.length - rfs.length), ?_, ?_, ?_, ?_⟩
      · rw [← List.take_append_eq_append_take, ← hl1pre, hm1]
      · intro f hf
        exact hroots f (List.take_subset _ _ hf)
      · intro f hf
        have hd := hdirs f (List.take_subset _ _ hf)
        exact ⟨hd, slash_mem_of_dirOf_ne hd⟩
      · intro f hf
        rw [← List.take_append_eq_append_take, ← hl1pre] at hf
        have hfo : f ∈ packOrder files := by
          rw [hl]
          exact List.mem_append.mpr (Or.inl hf)
        exact (packOrder_perm files).mem_iff.mp hfo
  · intro files o rs ds h
    unfold generateLLMOutput
    unfold selectedOf at h
    rw [h, List.map_append, join_append]

/-- Witness for `c5_root_first_chunks`: its head-chunk hypothesis discharged
on the concrete two-file input. -/
theorem c5_root_first_chunks_witness :
    ∃ roots dirs : List ProcessedFile,
      formatFile cxOpts cxRootFile ++ formatFile cxOpts cxDirFile =
        String.join ((roots ++ dirs).map (formatFile cxOpts)) ∧
      (∀ f ∈ roots, dirOf f.path = ".") ∧
      (∀ f ∈ dirs, dirOf f.path ≠ "." ∧ '/' ∈ f.path.data) ∧
      (∀ f ∈ roots ++ dirs, f ∈ selectedOf [cxDirFile, cxRootFile]) :=
  c5_root_first_chunks.1 [cxDirFile, cxRootFile] 1000 cxOpts
    (formatFile cxOpts cxRootFile ++ formatFile cxOpts cxDirFile) (by decide)

/-! ## Split/join round trips for path segments -/

theorem splitOnChar_ne_nil (sep : Char) (cs : List Char) : splitOnChar sep cs ≠ [] := by
  cases cs with
  | nil => simp [splitOnChar]
  | cons c cs =>
    unfold splitOnChar
    split
    · simp
    · cases h : splitOnChar sep cs <;> simp

theorem splitOnChar_not_mem (sep : Char) :
    ∀ cs : List Char, ∀ p ∈ splitOnChar sep cs, sep ∉ p := by
  intro cs
  induction cs with
  | nil =>
    intro p hp
    simp [splitOnChar] at hp
    subst hp
    simp
  | cons c cs ih =>
    intro p hp
    unfold splitOnChar at hp
    by_cases hc : c = sep
    · rw [if_pos hc] at hp
      rcases List.mem_cons.mp hp with rfl | hp
      · simp
      · exact ih p hp
    · rw [if_neg hc] at hp
      cases hsp : splitOnChar sep cs with
      | nil => exact absurd hsp (splitOnChar_ne_nil sep cs)
      | cons q qs =>
        rw [hsp] at hp
        rcases List.mem_cons.mp hp with rfl | hp
        · intro hmem
          rcases List.mem_cons.mp hmem with he | hmem2
          · exact hc he.symm
          · exact ih q (by rw [hsp]; simp) hmem2
        · exact ih p (by rw [hsp]; simp [hp])

theorem joinSegs_cons_cons (c : Char) (p : List Char) (ps : List (List Char)) :
    joinSegs ((c :: p) :: ps) = c :: joinSegs (p :: ps) := by
  cases ps <;> rfl

theorem joinSegs_splitOnChar (cs : List Char) : joinSegs (splitOnChar '/' cs) = cs := by
  induction cs with
  | nil => rfl
  | cons c cs ih =>
    unfold splitOnChar
    by_cases hc : c = '/'
    · rw [if_pos hc]
      cases hsp : splitOnChar '/' cs with
      | nil => exact absurd hsp (splitOnChar_ne_nil '/' cs)
      | cons q qs =>
        show joinSegs ([] :: q :: qs) = c :: cs
        unfold joinSegs
        rw [hc]
        rw [hsp] at ih
        simp [ih]
    · rw [if_neg hc]
      cases hsp : splitOnChar '/' cs with
      | nil => exact absurd hsp (splitOnChar_ne_nil '/' cs)
      | cons q qs =>
        rw [joinSegs_cons_cons]
        rw [hsp] at ih
        rw [ih]

theorem splitOnChar_no_sep {cs : List Char} (h : '/' ∉ cs) : splitOnChar '/' cs = [cs] := by
  induction cs with
  | nil => rfl
  | cons c cs ih =>
    have hc : c ≠ '/' := fun he => h (by simp [he])
    unfold splitOnChar
    rw [if_neg hc, ih (fun hm => h (by simp [hm]))]

theorem splitOnChar_append_sep {p : List Char} (hp : '/' ∉ p) (rest : List Char) :
    splitOnChar '/' (p ++ '/' :: rest) = p :: splitOnChar '/' rest := by
  induction p with
  | nil =>
    show splitOnChar '/' ('/' :: rest) = [] :: splitOnChar '/' rest
    conv_lhs => rw [splitOnChar]
    rw [if_pos rfl]
  | cons c p ih =>
    have hc : c ≠ '/' := fun he => hp (by simp [he])
    show splitOnChar '/' (c :: (p ++ '/' :: rest)) = (c :: p) :: splitOnChar '/' rest
    conv_lhs => rw [splitOnChar]
    rw [if_neg hc, ih (fun hm => hp (by simp [hm]))]

theorem splitOnChar_joinSegs :
    ∀ l : List (List Char), l ≠ [] → (∀ p ∈ l, '/' ∉ p) →
      splitOnChar '/' (joinSegs l) = l := by
  intro l
  induction l with
  | nil => intro h; exact absurd rfl h
  | cons p ps ih =>
    intro _ hok
    cases ps with
    | nil =>
      show splitOnChar '/' (joinSegs [p]) = [p]
      exact splitOnChar_no_sep (hok p (by simp))
    | cons q qs =>
      show splitOnChar '/' (p ++ '/' :: joinSegs (q :: qs)) = p :: q :: qs
      rw [splitOnChar_append_sep (hok p (by simp))]
      rw [ih (by simp) (fun x hx => hok x (by simp [hx]))]

theorem splitPath_ne_nil (p : String) : splitPath p ≠ [] := by
  unfold splitPath
  intro h
  exact splitOnChar_ne_nil '/' p.data (by simpa using h)

theorem splitPath_ok (p : String) : ∀ s ∈ splitPath p, '/' ∉ s.data := by
  intro s hs
  unfold splitPath at hs
  obtain ⟨cs, hcs, rfl⟩ := List.mem_map.mp hs
  exact splitOnChar_not_mem '/' p.data cs hcs

theorem joinPath_splitPath (p : String) : joinPath (splitPath p) = p := by
  unfold joinPath splitPath
  apply String.ext
  show joinSegs (((splitOnChar '/' p.data).map String.mk).map String.data) = p.data
  rw [List.map_map]
  have hmm : (String.data ∘ String.mk) = (id : List Char → List Char) := rfl
  rw [hmm, List.map_id]
  exact joinSegs_splitOnChar p.data

theorem splitPath_joinPath {l : List String} (hne : l ≠ [])
    (hok : ∀ s ∈ l, '/' ∉ s.data) : splitPath (joinPath l) = l := by
  unfold splitPath joinPath
  show (splitOnChar '/' (String.mk (joinSegs (l.map String.data))).data).map String.mk = l
  have hd : (String.mk (joinSegs (l.map String.data))).data = joinSegs (l.map String.data) := rfl
  rw [hd]
  rw [splitOnChar_joinSegs (l.map String.data) (by simpa using hne)
    (by intro q hq; obtain ⟨s, hs, rfl⟩ := List.mem_map.mp hq; exact hok s hs)]
  rw [List.map_map]
  have hmm : (String.mk ∘ String.data) = (id : String → String) := by
    funext s
    cases s
    rfl
  rw [hmm, List.map_id]

theorem segsOf_joinPath {l : List String} (hne : l ≠ [])
    (hok : ∀ s ∈ l, '/' ∉ s.data) : segsOf (joinPath l) = l :=
  splitPath_joinPath hne hok

theorem segsOf_inj {p q : String} (h : segsOf p = segsOf q) : p = q := by
  have h1 := joinPath_splitPath p
  have h2 := joinPath_splitPath q
  unfold segsOf at h
  rw [← h1, ← h2, h]

/-! ## Forest path and node lemmas -/

theorem forestPaths_nil : forestPaths [] = [] := rfl

theorem forestPaths_cons (n : FileNode) (ns : List FileNode) :
    forestPaths (n :: ns) = nodePaths n ++ forestPaths ns := by
  rw [forestPaths]

theorem forestPaths_append (a b : List FileNode) :
    forestPaths (a ++ b) = forestPaths a ++ forestPaths b := by
  induction a with
  | nil => rfl
  | cons n ns ih =>
    rw [List.cons_append, forestPaths_cons, forestPaths_cons, ih, List.append_assoc]

theorem nodePaths_eq (n : FileNode) :
    nodePaths n = n.path :: (match n.children with | none => [] | some cs => forestPaths cs) := by
  cases n with
  | mk nm p f c ch => cases ch <;> rfl

theorem path_mem_nodePaths (n : FileNode) : n.path ∈ nodePaths n := by
  rw [nodePaths_eq]
  simp

theorem mem_nodePaths {p : String} {n : FileNode} :
    p ∈ nodePaths n ↔
      p = n.path ∨ ∃ cs, n.children = some cs ∧ p ∈ forestPaths cs := by
  rw [nodePaths_eq]
  cases hch : n.children with
  | none => simp
  | some cs => simp

theorem mem_forestPaths {p : String} {level : List FileNode} :
    p ∈ forestPaths level ↔ ∃ n ∈ level, p ∈ nodePaths n := by
  induction level with
  | nil => simp [forestPaths_nil]
  | cons n ns ih =>
    rw [forestPaths_cons]
    simp only [List.mem_append, ih, List.mem_cons]
    constructor
    · rintro (h | ⟨m, hm, hp⟩)
      · exact ⟨n, Or.inl rfl, h⟩
      · exact ⟨m, Or.inr hm, hp⟩
    · rintro ⟨m, hm | hm, hp⟩
      · subst hm
        exact Or.inl hp
      · exact Or.inr ⟨m, hm, hp⟩

theorem path_mem_forestPaths {n : FileNode} {level : List FileNode} (h : n ∈ level) :
    n.path ∈ forestPaths level :=
  mem_forestPaths.mpr ⟨n, h, path_mem_nodePaths n⟩

theorem nodup_eq_of_path {level : List FileNode} (hnd : (forestPaths level).Nodup)
    {m n : FileNode} (hm : m ∈ level) (hn : n ∈ level) (hp : m.path = n.path) : m = n := by
  by_contra hne
  obtain ⟨l1, l2, rfl⟩ := List.append_of_mem hm
  have hn2 : n ∈ l1 ∨ n ∈ l2 := by
    rcases List.mem_append.mp hn with h | h
    · exact Or.inl h
    · rcases List.mem_cons.mp h with he | h
      · exact absurd he.symm hne
      · exact Or.inr h
  rw [forestPaths_append, forestPaths_cons] at hnd
  have hd1 := List.disjoint_of_nodup_append hnd
  have hnd2 : (nodePaths m ++ forestPaths l2).Nodup := (List.nodup_append.mp hnd).2.1
  have hd2 := List.disjoint_of_nodup_append hnd2
  rcases hn2 with h | h
  · exact hd1 (mem_forestPaths.mpr ⟨n, h, path_mem_nodePaths n⟩)
      (by rw [← hp] at *; exact List.mem_append.mpr (Or.inl (path_mem_nodePaths m)))
  · exact hd2 (hp ▸ path_mem_nodePaths m) (mem_forestPaths.mpr ⟨n, h, path_mem_nodePaths n⟩)

/-! ## findNode and replaceChildren lemmas -/

theorem findNode_none {level : List FileNode} {path : String}
    (h : findNode level path = none) : ∀ n ∈ level, n.path ≠ path := by
  intro n hn
  have := List.find?_eq_none.mp h n hn
  simpa using this

theorem findNode_some {level : List FileNode} {path : String} {n : FileNode}
    (h : findNode level path = some n) : n ∈ level ∧ n.path = path := by
  refine ⟨List.mem_of_find?_eq_some h, ?_⟩
  have := List.find?_some h
  simpa using this

theorem replaceChildren_split {level : List FileNode} {path : String} {node : FileNode}
    (h : findNode level path = some node) (newCs : List FileNode) :
    ∃ l1 l2, level = l1 ++ node :: l2 ∧ (∀ m ∈ l1, m.path ≠ path) ∧
      replaceChildren level path newCs =
        l1 ++ FileNode.mk node.name node.path node.isFile node.checked (some newCs) :: l2 := by
  induction level with
  | nil => simp [findNode, List.find?] at h
  | cons n ns ih =>
    by_cases hn : n.path = path
    · have hnode : node = n := by
        unfold findNode at h
        rw [List.find?_cons_of_pos _ (by simpa using hn)] at h
        exact (Option.some.inj h).symm
      subst hnode
      refine ⟨[], ns, rfl, by simp, ?_⟩
      unfold replaceChildren
      rw [if_pos hn]
      simp
    · have h2 : findNode ns path = some node := by
        unfold findNode at h ⊢
        rwa [List.find?_cons_of_neg _ (by simpa using hn)] at h
      obtain ⟨l1, l2, hsp, hl1, hrep⟩ := ih h2
      refine ⟨n :: l1, l2, by rw [hsp]; rfl, ?_, ?_⟩
      · intro m hm
        rcases List.mem_cons.mp hm with rfl | hm
        · exact hn
        · exact hl1 m hm
      · show replaceChildren (n :: ns) path newCs = n :: (l1 ++ _ :: l2)
        unfold replaceChildren
        rw [if_neg hn, hrep]

/-! ## Structural lemmas about the tree invariant -/

theorem forestWF_def (base : List String) (level : List FileNode) :
    ForestWF base level ↔
      AllChildrenWF level ∧ LevelConds base level ∧ (forestPaths level).Nodup := by
  rw [ForestWF]

theorem allChildrenWF_nil : AllChildrenWF [] := by
  rw [AllChildrenWF]
  trivial

theorem allChildrenWF_cons {n : FileNode} {ns : List FileNode} :
    AllChildrenWF (n :: ns) ↔ NodeChildrenWF n ∧ AllChildrenWF ns := by
  rw [AllChildrenWF]

theorem allChildrenWF_append {a b : List FileNode} :
    AllChildrenWF (a ++ b) ↔ AllChildrenWF a ∧ AllChildrenWF b := by
  induction a with
  | nil => simp [allChildrenWF_nil, List.nil_append]
  | cons n ns ih =>
    rw [List.cons_append, allChildrenWF_cons, allChildrenWF_cons, ih, and_assoc]

theorem allChildrenWF_mem {level : List FileNode} {n : FileNode}
    (h : AllChildrenWF level) (hn : n ∈ level) : NodeChildrenWF n := by
  induction level with
  | nil => cases hn
  | cons m ms ih =>
    rcases List.mem_cons.mp hn with rfl | hn
    · exact (allChildrenWF_cons.mp h).1
    · exact ih (allChildrenWF_cons.mp h).2 hn

theorem nodeChildrenWF_none {n : FileNode} (h : n.children = none) : NodeChildrenWF n := by
  cases n with
  | mk nm p f c ch =>
    cases ch with
    | none =>
      rw [NodeChildrenWF]
      trivial
    | some cs => simp [FileNode.children] at h

theorem nodeChildrenWF_some {n : FileNode} {cs : List FileNode} (h : NodeChildrenWF n)
    (hc : n.children = some cs) : ForestWF (segsOf n.path) cs := by
  cases n with
  | mk nm p f c ch =>
    cases ch with
    | none => simp [FileNode.children] at hc
    | some cs2 =>
      have hcs2 : cs2 = cs := by
        have h3 : some cs2 = some cs := hc
        exact Option.some.inj h3
      subst hcs2
      rw [NodeChildrenWF] at h
      exact h

theorem nodeChildrenWF_mk_some {nm p : String} {f c : Bool} {cs : List FileNode} :
    NodeChildrenWF (FileNode.mk nm p f c (some cs)) ↔ ForestWF (segsOf p) cs := by
  rw [NodeChildrenWF]

theorem forestWF_ext (k : Nat) : ∀ (level : List FileNode), sizeOf level < k →
    ∀ (base : List String), ForestWF base level →
    ∀ p ∈ forestPaths level, base <+: segsOf p ∧ base ≠ segsOf p := by
  induction k with
  | zero => intro level h; omega
  | succ k ih =>
    intro level hsz base hwf p hp
    obtain ⟨n, hn, hpn⟩ := mem_forestPaths.mp hp
    rcases mem_nodePaths.mp hpn with rfl | ⟨cs, hcs, hpcs⟩
    · exact ((forestWF_def base level).mp hwf).2.1.1 n hn
    · have hwfcs : ForestWF (segsOf n.path) cs :=
        nodeChildrenWF_some (allChildrenWF_mem ((forestWF_def base level).mp hwf).1 hn) hcs
      have hszcs : sizeOf cs < k := by
        have h1 : sizeOf n < sizeOf level := List.sizeOf_lt_of_mem hn
        have h2 : sizeOf cs < sizeOf n := by
          cases n with
          | mk nm pth f c ch =>
            cases ch with
            | none => simp [FileNode.children] at hcs
            | some cs2 =>
              have hcs2 : cs2 = cs := by
                have h3 : some cs2 = some cs := hcs
                exact Option.some.inj h3
              subst hcs2
              simp only [FileNode.mk.sizeOf_spec, Option.some.sizeOf_spec]
              omega
        omega
      have hrec := ih cs hszcs (segsOf n.path) hwfcs p hpcs
      have hn1 := ((forestWF_def base level).mp hwf).2.1.1 n hn
      refine ⟨hn1.1.trans hrec.1, ?_⟩
      intro he
      have l1 : base.length ≤ (segsOf n.path).length := hn1.1.length_le
      have l2 : (segsOf n.path).length ≤ (segsOf p).length := hrec.1.length_le
      have l3 : base.length < (segsOf n.path).length := by
        rcases Nat.lt_or_ge base.length (segsOf n.path).length with h | h
        · exact h
        · exact absurd (hn1.1.eq_of_length_le h) hn1.2
      have l4 := congrArg List.length he
      omega

/-- The convenient instantiation of `forestWF_ext`. -/
theorem forestWF_ext' {base : List String} {level : List FileNode} (hwf : ForestWF base level)
    {p : String} (hp : p ∈ forestPaths level) :
    base <+: segsOf p ∧ base ≠ segsOf p :=
  forestWF_ext (sizeOf level + 1) level (by omega) base hwf p hp

/-! ## Locating extensions of the current walk position -/

theorem prefix_snoc_of_ne {α : Type} {q l : List α} {x : α} (h : q <+: l ++ [x])
    (hne : q ≠ l ++ [x]) : q <+: l := by
  rcases List.prefix_concat_iff.mp h with h1 | h1
  · exact absurd h1 hne
  · exact h1

theorem path_eq_joinPath_of_segs {x : String} {l : List String} (h : segsOf x = l) :
    x = joinPath l := by
  rw [← h]
  exact (joinPath_splitPath x).symm

theorem cumPaths_cons (consumed : List String) (part : String) (rest : List String) :
    cumPaths consumed (part :: rest) =
      joinPath (consumed ++ [part]) :: cumPaths (consumed ++ [part]) rest := by
  rw [cumPaths]

theorem cumPaths_nil (consumed : List String) : cumPaths consumed [] = [] := rfl

theorem ext_path_located {base consumed : List String} {part : String} {level : List FileNode}
    (hwf : ForestWF base level) (hbc : base <+: consumed)
    (hhist : ∀ q : List String, base <+: q → q <+: consumed → q ≠ base →
      ∃ m ∈ level, segsOf m.path = q ∧ m.children = none)
    {p : String} (hp : p ∈ forestPaths level)
    (hext : (consumed ++ [part]) <+: segsOf p) :
    ∃ w ∈ level, w.path = joinPath (consumed ++ [part]) ∧
      (w.children ≠ none → p ≠ w.path → ∃ cs, w.children = some cs ∧ p ∈ forestPaths cs) := by
  have hbc' : base <+: consumed ++ [part] := hbc.trans (List.prefix_append _ _)
  have hbne' : base ≠ consumed ++ [part] := by
    intro he
    have h1 := hbc.length_le
    have h2 := congrArg List.length he
    simp at h2
    omega
  obtain ⟨wf1, ⟨wfW1, wfW3⟩, wfnd⟩ := (forestWF_def base level).mp hwf
  obtain ⟨n, hn, hpn⟩ := mem_forestPaths.mp hp
  rcases mem_nodePaths.mp hpn with rfl | ⟨cs, hcs, hpcs⟩
  · by_cases heq : segsOf n.path = consumed ++ [part]
    · refine ⟨n, hn, path_eq_joinPath_of_segs heq, ?_⟩
      intro _ hne
      exact absurd rfl hne
    · obtain ⟨m, hm, hmseg, hmch⟩ :=
        wfW3 n hn (consumed ++ [part]) hbc' hext (Ne.symm hbne') (fun he => heq he.symm)
      exact ⟨m, hm, path_eq_joinPath_of_segs hmseg, fun hch _ => absurd hmch hch⟩
  · have hncw := allChildrenWF_mem wf1 hn
    have hwfcs := nodeChildrenWF_some hncw hcs
    have hrec := forestWF_ext' hwfcs hpcs
    by_cases heq : segsOf n.path = consumed ++ [part]
    · refine ⟨n, hn, path_eq_joinPath_of_segs heq, ?_⟩
      intro _ _
      exact ⟨cs, hcs, hpcs⟩
    · rcases List.prefix_or_prefix_of_prefix hrec.1 hext with hcase | hcase
      · have hpc : segsOf n.path <+: consumed := prefix_snoc_of_ne hcase heq
        have hW1 := wfW1 n hn
        obtain ⟨m, hm, hmseg, hmch⟩ := hhist (segsOf n.path) hW1.1 hpc (Ne.symm hW1.2)
        have hmp : m.path = n.path := segsOf_inj hmseg
        have hmn := nodup_eq_of_path wfnd hm hn hmp
        rw [hmn, hcs] at hmch
        cases hmch
      · obtain ⟨m, hm, hmseg, hmch⟩ :=
          wfW3 n hn (consumed ++ [part]) hbc' hcase (Ne.symm hbne') (fun he => heq he.symm)
        exact ⟨m, hm, path_eq_joinPath_of_segs hmseg, fun hch _ => absurd hmch hch⟩

/-! ## Equation lemmas for one step of the tree walk -/

theorem insertParts_nil (level : List FileNode) (consumed : List String) :
    insertParts level consumed [] = level := rfl

theorem insertParts_cons (level : List FileNode) (consumed : List String) (part : String)
    (rest : List String) :
    insertParts level consumed (part :: rest) =
      match findNode level (joinPath (consumed ++ [part])) with
      | none =>
        if rest.isEmpty then
          level ++ [FileNode.mk part (joinPath (consumed ++ [part])) true true none]
        else
          level ++ [FileNode.mk part (joinPath (consumed ++ [part])) false true
            (some (insertParts [] (consumed ++ [part]) rest))]
      | some node =>
        match node.children with
        | some cs =>
          if rest.isEmpty then level
          else replaceChildren level (joinPath (consumed ++ [part]))
            (insertParts cs (consumed ++ [part]) rest)
        | none => insertParts level (consumed ++ [part]) rest := rfl

theorem insertParts_none_file {level : List FileNode} {consumed : List String} {part : String}
    (hfind : findNode level (joinPath (consumed ++ [part])) = none) :
    insertParts level consumed [part] =
      level ++ [FileNode.mk part (joinPath (consumed ++ [part])) true true none] := by
  rw [insertParts_cons, hfind]
  rfl

theorem insertParts_none_dir {level : List FileNode} {consumed : List String} {part : String}
    {rest : List String} (hfind : findNode level (joinPath (consumed ++ [part])) = none)
    (hrest : rest ≠ []) :
    insertParts level consumed (part :: rest) =
      level ++ [FileNode.mk part (joinPath (consumed ++ [part])) false true
        (some (insertParts [] (consumed ++ [part]) rest))] := by
  rw [insertParts_cons, hfind]
  cases rest with
  | nil => exact absurd rfl hrest
  | cons r rs => rfl

theorem insertParts_some_file {level : List FileNode} {consumed : List String} {part : String}
    {node : FileNode} {cs : List FileNode}
    (hfind : findNode level (joinPath (consumed ++ [part])) = some node)
    (hch : node.children = some cs) :
    insertParts level consumed [part] = level := by
  cases node with
  | mk nm p f c ch =>
    rw [insertParts_cons, hfind]
    cases ch with
    | some cs2 => rfl
    | none => simp [FileNode.children] at hch

theorem insertParts_some_dir {level : List FileNode} {consumed : List String} {part : String}
    {rest : List String} {node : FileNode} {cs : List FileNode}
    (hfind : findNode level (joinPath (consumed ++ [part])) = some node)
    (hch : node.children = some cs) (hrest : rest ≠ []) :
    insertParts level consumed (part :: rest) =
      replaceChildren level (joinPath (consumed ++ [part]))
        (insertParts cs (consumed ++ [part]) rest) := by
  cases node with
  | mk nm p f c ch =>
    rw [insertParts_cons, hfind]
    cases ch with
    | none => simp [FileNode.children] at hch
    | some cs2 =>
      have hcs : cs2 = cs := Option.some.inj hch
      subst hcs
      cases rest with
      | nil => exact absurd rfl hrest
      | cons r rs => rfl

theorem insertParts_some_stuck {level : List FileNode} {consumed : List String} {part : String}
    {rest : List String} {node : FileNode}
    (hfind : findNode level (joinPath (consumed ++ [part])) = some node)
    (hch : node.children = none) :
    insertParts level consumed (part :: rest) =
      insertParts level (consumed ++ [part]) rest := by
  cases node with
  | mk nm p f c ch =>
    rw [insertParts_cons, hfind]
    cases ch with
    | none => rfl
    | some cs2 => simp [FileNode.children] at hch

/-- Every cumulative path contributed by the remaining parts strictly extends
the consumed segment list. -/
theorem mem_cumPaths : ∀ (parts consumed : List String),
    (∀ s ∈ consumed, '/' ∉ s.data) → (∀ s ∈ parts, '/' ∉ s.data) →
    ∀ p ∈ cumPaths consumed parts,
      consumed <+: segsOf p ∧ consumed.length < (segsOf p).length := by
  intro parts
  induction parts with
  | nil =>
    intro consumed _ _ p hp
    rw [cumPaths_nil] at hp
    cases hp
  | cons part rest ih =>
    intro consumed hokc hokp p hp
    have hok' : ∀ s ∈ consumed ++ [part], '/' ∉ s.data := by
      intro s hs
      rcases List.mem_append.mp hs with h | h
      · exact hokc s h
      · simp at h
        rw [h]
        exact hokp part (by simp)
    rw [cumPaths_cons] at hp
    rcases List.mem_cons.mp hp with rfl | hp
    · have hsegs : segsOf (joinPath (consumed ++ [part])) = consumed ++ [part] :=
        segsOf_joinPath (by simp) hok'
      rw [hsegs]
      exact ⟨List.prefix_append _ _, by simp⟩
    · have hrec := ih (consumed ++ [part]) hok'
        (fun s hs => hokp s (by simp [hs])) p hp
      refine ⟨(List.prefix_append _ _).trans hrec.1, ?_⟩
      have := hrec.2
      simp at this
      omega

/-- Replacing the middle block of a sandwiched `Nodup` list keeps it `Nodup`
when the new block is itself duplicate-free and avoids the outer pieces. -/
theorem nodup_sandwich {x z w y : List String} {a : String}
    (hold : (x ++ (a :: y) ++ z).Nodup) (hwnd : w.Nodup) (haw : a ∉ w)
    (hwx : ∀ p ∈ w, p ∉ x) (hwz : ∀ p ∈ w, p ∉ z) :
    (x ++ (a :: w) ++ z).Nodup := by
  rw [List.nodup_append, List.nodup_append] at hold ⊢
  obtain ⟨⟨hx, hmid, hdxm⟩, hz, hdz⟩ := hold
  have hmid' : (a :: w).Nodup := List.nodup_cons.mpr ⟨haw, hwnd⟩
  refine ⟨⟨hx, hmid', ?_⟩, hz, ?_⟩
  · intro p hpx hpm
    rcases List.mem_cons.mp hpm with rfl | hpw
    · exact hdxm hpx (by simp)
    · exact hwx p hpw hpx
  · intro p hpxm hpz
    rcases List.mem_append.mp hpxm with hpx | hpm
    · exact hdz (List.mem_append.mpr (Or.inl hpx)) hpz
    · rcases List.mem_cons.mp hpm with rfl | hpw
      · exact hdz (List.mem_append.mpr (Or.inr (by simp))) hpz
      · exact hwz p hpw hpz

theorem nodePaths_of_children_some {n : FileNode} {cs : List FileNode}
    (h : n.children = some cs) : nodePaths n = n.path :: forestPaths cs := by
  cases n with
  | mk nm p f c ch =>
    cases ch with
    | none => simp [FileNode.children] at h
    | some cs2 =>
      rw [show cs2 = cs from Option.some.inj h, nodePaths]
      rfl

/-- One whole file walk preserves the tree invariant, and adds exactly the
cumulative prefixes of the remaining parts to the forest's path set. -/
theorem insertParts_wf : ∀ (parts : List String) (level : List FileNode)
    (consumed base : List String),
    ForestWF base level →
    (∀ s ∈ parts, '/' ∉ s.data) →
    (∀ s ∈ consumed, '/' ∉ s.data) →
    base <+: consumed →
    (∀ q : List String, base <+: q → q <+: consumed → q ≠ base →
      ∃ m ∈ level, segsOf m.path = q ∧ m.children = none) →
    ForestWF base (insertParts level consumed parts) ∧
    (∀ p : String, p ∈ forestPaths (insertParts level consumed parts) ↔
      p ∈ forestPaths level ∨ p ∈ cumPaths consumed parts) := by
  intro parts
  induction parts with
  | nil =>
    intro level consumed base hwf _ _ _ _
    rw [insertParts_nil]
    exact ⟨hwf, fun p => by rw [cumPaths_nil]; simp⟩
  | cons part rest ih =>
    intro level consumed base hwf hokp hokc hbc hhist
    have hokpart : '/' ∉ part.data := hokp part (by simp)
    have hokrest : ∀ s ∈ rest, '/' ∉ s.data := fun s hs => hokp s (by simp [hs])
    have hok' : ∀ s ∈ consumed ++ [part], '/' ∉ s.data := by
      intro s hs
      rcases List.mem_append.mp hs with h | h
      · exact hokc s h
      · simp at h
        rw [h]
        exact hokpart
    have hsegs : segsOf (joinPath (consumed ++ [part])) = consumed ++ [part] :=
      segsOf_joinPath (by simp) hok'
    have hbc' : base <+: consumed ++ [part] := hbc.trans (List.prefix_append _ _)
    have hbne' : base ≠ consumed ++ [part] := by
      intro he
      have h1 := hbc.length_le
      have h2 := congrArg List.length he
      simp at h2
      omega
    obtain ⟨wf1, ⟨wfW1, wfW3⟩, wfnd⟩ := (forestWF_def base level).mp hwf
    cases hfind : findNode level (joinPath (consumed ++ [part])) with
    | none =>
      have habs : ∀ p ∈ forestPaths level, ¬ ((consumed ++ [part]) <+: segsOf p) := by
        intro p hp hext
        obtain ⟨w, hw, hwp, _⟩ := ext_path_located hwf hbc hhist hp hext
        exact findNode_none hfind w hw hwp
      have hnotin : joinPath (consumed ++ [part]) ∉ forestPaths level := by
        intro hmem
        exact habs _ hmem (by rw [hsegs])
      cases rest with
      | nil =>
        rw [insertParts_none_file hfind]
        have hfp : forestPaths
            (level ++ [FileNode.mk part (joinPath (consumed ++ [part])) true true none]) =
            forestPaths level ++ [joinPath (consumed ++ [part])] := by
          rw [forestPaths_append]
          rfl
        constructor
        · rw [forestWF_def]
          refine ⟨?_, ⟨?_, ?_⟩, ?_⟩
          · exact allChildrenWF_append.mpr ⟨wf1,
              allChildrenWF_cons.mpr ⟨nodeChildrenWF_none rfl, allChildrenWF_nil⟩⟩
          · intro n hn
            rcases List.mem_append.mp hn with hn | hn
            · exact wfW1 n hn
            · have hneq : n = FileNode.mk part (joinPath (consumed ++ [part])) true true none := by
                simpa using hn
              rw [hneq]
              show base <+: segsOf (joinPath (consumed ++ [part])) ∧
                base ≠ segsOf (joinPath (consumed ++ [part]))
              rw [hsegs]
              exact ⟨hbc', hbne'⟩
          · intro n hn q hq1 hq2 hq3 hq4
            rcases List.mem_append.mp hn with hn | hn
            · obtain ⟨m, hm, hms, hmc⟩ := wfW3 n hn q hq1 hq2 hq3 hq4
              exact ⟨m, List.mem_append.mpr (Or.inl hm), hms, hmc⟩
            · have hneq : n = FileNode.mk part (joinPath (consumed ++ [part])) true true none := by
                simpa using hn
              rw [hneq] at hq2 hq4
              have hq2' : q <+: consumed ++ [part] := by
                rw [← hsegs]
                exact hq2
              have hq4' : q ≠ consumed ++ [part] := by
                rw [← hsegs]
                exact hq4
              have hqc : q <+: consumed := prefix_snoc_of_ne hq2' hq4'
              obtain ⟨m, hm, hms, hmc⟩ := hhist q hq1 hqc hq3
              exact ⟨m, List.mem_append.mpr (Or.inl hm), hms, hmc⟩
          · rw [hfp, List.nodup_append]
            refine ⟨wfnd, List.nodup_singleton _, ?_⟩
            intro p hp hp2
            simp at hp2
            rw [hp2] at hp
            exact hnotin hp
        · intro p
          rw [hfp, cumPaths_cons, cumPaths_nil]
          simp [List.mem_append]
      | cons r rs =>
        rw [insertParts_none_dir hfind (by simp)]
        have hwfnil : ForestWF (consumed ++ [part]) [] := by
          rw [forestWF_def]
          refine ⟨allChildrenWF_nil, ⟨?_, ?_⟩, by rw [forestPaths_nil]; exact List.nodup_nil⟩
          · intro n hn
            cases hn
          · intro n hn
            cases hn
        obtain ⟨hwfcs, hmemcs⟩ := ih [] (consumed ++ [part]) (consumed ++ [part]) hwfnil
          hokrest hok' (List.prefix_refl _)
          (by
            intro q hq1 hq2 hq3
            exact absurd (hq2.eq_of_length_le hq1.length_le) hq3)
        have hfp1 : forestPaths [FileNode.mk part (joinPath (consumed ++ [part])) false true
            (some (insertParts [] (consumed ++ [part]) (r :: rs)))] =
            joinPath (consumed ++ [part]) ::
              forestPaths (insertParts [] (consumed ++ [part]) (r :: rs)) := by
          have hchx : (FileNode.mk part (joinPath (consumed ++ [part])) false true
              (some (insertParts [] (consumed ++ [part]) (r :: rs)))).children =
              some (insertParts [] (consumed ++ [part]) (r :: rs)) := rfl
          rw [forestPaths_cons, forestPaths_nil, List.append_nil,
            nodePaths_of_children_some hchx]
          rfl
        have hfp : forestPaths (level ++ [FileNode.mk part (joinPath (consumed ++ [part]))
            false true (some (insertParts [] (consumed ++ [part]) (r :: rs)))]) =
            forestPaths level ++ (joinPath (consumed ++ [part]) ::
              forestPaths (insertParts [] (consumed ++ [part]) (r :: rs))) := by
          rw [forestPaths_append, hfp1]
        have hextnew : ∀ p ∈ forestPaths (insertParts [] (consumed ++ [part]) (r :: rs)),
            (consumed ++ [part]) <+: segsOf p ∧ (consumed ++ [part]) ≠ segsOf p :=
          fun p hp => forestWF_ext' hwfcs hp
        have hnotin2 : ∀ p ∈ forestPaths (insertParts [] (consumed ++ [part]) (r :: rs)),
            p ∉ forestPaths level := by
          intro p hp hpl
          exact habs p hpl (hextnew p hp).1
        have hndne : joinPath (consumed ++ [part]) ∉
            forestPaths (insertParts [] (consumed ++ [part]) (r :: rs)) := by
          intro hp
          exact (hextnew _ hp).2 (by rw [hsegs])
        constructor
        · rw [forestWF_def]
          refine ⟨?_, ⟨?_, ?_⟩, ?_⟩
          · refine allChildrenWF_append.mpr ⟨wf1, allChildrenWF_cons.mpr ⟨?_, allChildrenWF_nil⟩⟩
            refine nodeChildrenWF_mk_some.mpr ?_
            rw [hsegs]
            exact hwfcs
          · intro n hn
            rcases List.mem_append.mp hn with hn | hn
            · exact wfW1 n hn
            · have hneq : n = FileNode.mk part (joinPath (consumed ++ [part])) false true
                  (some (insertParts [] (consumed ++ [part]) (r :: rs))) := by
                simpa using hn
              rw [hneq]
              show base <+: segsOf (joinPath (consumed ++ [part])) ∧
                base ≠ segsOf (joinPath (consumed ++ [part]))
              rw [hsegs]
              exact ⟨hbc', hbne'⟩
          · intro n hn q hq1 hq2 hq3 hq4
            rcases List.mem_append.mp hn with hn | hn
            · obtain ⟨m, hm, hms, hmc⟩ := wfW3 n hn q hq1 hq2 hq3 hq4
              exact ⟨m, List.mem_append.mpr (Or.inl hm), hms, hmc⟩
            · have hneq : n = FileNode.mk part (joinPath (consumed ++ [part])) false true
                  (some (insertParts [] (consumed ++ [part]) (r :: rs))) := by
                simpa using hn
              rw [hneq] at hq2 hq4
              have hq2' : q <+: consumed ++ [part] := by
                rw [← hsegs]
                exact hq2
              have hq4' : q ≠ consumed ++ [part] := by
                rw [← hsegs]
                exact hq4
              have hqc : q <+: consumed := prefix_snoc_of_ne hq2' hq4'
              obtain ⟨m, hm, hms, hmc⟩ := hhist q hq1 hqc hq3
              exact ⟨m, List.mem_append.mpr (Or.inl hm), hms, hmc⟩
          · rw [hfp, List.nodup_append]
            refine ⟨wfnd, List.nodup_cons.mpr ⟨hndne, ((forestWF_def _ _).mp hwfcs).2.2⟩, ?_⟩
            intro p hp hp2
            rcases List.mem_cons.mp hp2 with rfl | hp2
            · exact hnotin hp
            · exact hnotin2 p hp2 hp
        · intro p
          rw [hfp, cumPaths_cons]
          have h1 := hmemcs p
          rw [forestPaths_nil] at h1
          simp only [List.not_mem_nil, false_or] at h1
          simp only [List.mem_append, List.mem_cons, h1]
    | some node =>
      obtain ⟨hnodemem, hnodepath⟩ := findNode_some hfind
      cases hch : node.children with
      | some cs =>
        have hwfcs0 : ForestWF (consumed ++ [part]) cs := by
          have hx := nodeChildrenWF_some (allChildrenWF_mem wf1 hnodemem) hch
          rwa [hnodepath, hsegs] at hx
        have hcont : ∀ p ∈ forestPaths level, (consumed ++ [part]) <+: segsOf p →
            (consumed ++ [part]) ≠ segsOf p → p ∈ forestPaths cs := by
          intro p hp hpre hne
          obtain ⟨w, hw, hwp, himp⟩ := ext_path_located hwf hbc hhist hp hpre
          have hwn : w = node := nodup_eq_of_path wfnd hw hnodemem (hwp.trans hnodepath.symm)
          have hpne : p ≠ w.path := by
            intro he
            apply hne
            rw [he, hwp, hsegs]
          have hchne : w.children ≠ none := by
            rw [hwn, hch]
            simp
          obtain ⟨cs2, hcs2, hpcs2⟩ := himp hchne hpne
          rw [hwn, hch] at hcs2
          rw [show cs = cs2 from Option.some.inj hcs2]
          exact hpcs2
        cases rest with
        | nil =>
          rw [insertParts_some_file hfind hch]
          refine ⟨hwf, ?_⟩
          intro p
          rw [cumPaths_cons, cumPaths_nil]
          constructor
          · exact Or.inl
          · rintro (h | h)
            · exact h
            · simp at h
              rw [h, ← hnodepath]
              exact path_mem_forestPaths hnodemem
        | cons r rs =>
          rw [insertParts_some_dir hfind hch (by simp)]
          obtain ⟨hwfcs', hmemcs⟩ := ih cs (consumed ++ [part]) (consumed ++ [part]) hwfcs0
            hokrest hok' (List.prefix_refl _)
            (by
              intro q hq1 hq2 hq3
              exact absurd (hq2.eq_of_length_le hq1.length_le) hq3)
          obtain ⟨l1, l2, hlev, hl1, hrep⟩ :=
            replaceChildren_split hfind (insertParts cs (consumed ++ [part]) (r :: rs))
          rw [hrep]
          have hfpold : forestPaths level = forestPaths l1 ++
              (node.path :: forestPaths cs) ++ forestPaths l2 := by
            rw [hlev, forestPaths_append, forestPaths_cons, nodePaths_of_children_some hch,
              List.append_assoc]
          have hfpnew : forestPaths (l1 ++ FileNode.mk node.name node.path node.isFile
              node.checked (some (insertParts cs (consumed ++ [part]) (r :: rs))) :: l2) =
              forestPaths l1 ++ (node.path ::
                forestPaths (insertParts cs (consumed ++ [part]) (r :: rs))) ++
                forestPaths l2 := by
            have hchx : (FileNode.mk node.name node.path node.isFile node.checked
                (some (insertParts cs (consumed ++ [part]) (r :: rs)))).children =
                some (insertParts cs (consumed ++ [part]) (r :: rs)) := rfl
            rw [forestPaths_append, forestPaths_cons, nodePaths_of_children_some hchx,
              List.append_assoc]
            rfl
          have hextnew : ∀ p ∈ forestPaths (insertParts cs (consumed ++ [part]) (r :: rs)),
              (consumed ++ [part]) <+: segsOf p ∧ (consumed ++ [part]) ≠ segsOf p :=
            fun p hp => forestWF_ext' hwfcs' hp
          have hndnotin : node.path ∉
              forestPaths (insertParts cs (consumed ++ [part]) (r :: rs)) := by
            intro hp
            apply (hextnew _ hp).2
            rw [hnodepath, hsegs]
          have holdnd := wfnd
          rw [hfpold] at holdnd
          have hsplit := holdnd
          rw [List.nodup_append, List.nodup_append] at hsplit
          obtain ⟨⟨hx1, hmidnd, hdxm⟩, hz1, hdz⟩ := hsplit
          have hnotl1 : ∀ p ∈ forestPaths (insertParts cs (consumed ++ [part]) (r :: rs)),
              p ∉ forestPaths l1 := by
            intro p hp hp1
            have hplev : p ∈ forestPaths level := by
              rw [hfpold]
              exact List.mem_append.mpr (Or.inl (List.mem_append.mpr (Or.inl hp1)))
            have hpcs := hcont p hplev (hextnew p hp).1 (hextnew p hp).2
            exact hdxm hp1 (List.mem_cons.mpr (Or.inr hpcs))
          have hnotl2 : ∀ p ∈ forestPaths (insertParts cs (consumed ++ [part]) (r :: rs)),
              p ∉ forestPaths l2 := by
            intro p hp hp2
            have hplev : p ∈ forestPaths level := by
              rw [hfpold]
              exact List.mem_append.mpr (Or.inr hp2)
            have hpcs := hcont p hplev (hextnew p hp).1 (hextnew p hp).2
            exact hdz (List.mem_append.mpr (Or.inr (List.mem_cons.mpr (Or.inr hpcs)))) hp2
          constructor
          · rw [forestWF_def]
            refine ⟨?_, ⟨?_, ?_⟩, ?_⟩
            · have hold := wf1
              rw [hlev, allChildrenWF_append, allChildrenWF_cons] at hold
              obtain ⟨ha1, _, ha2⟩ := hold
              refine allChildrenWF_append.mpr ⟨ha1, allChildrenWF_cons.mpr ⟨?_, ha2⟩⟩
              refine nodeChildrenWF_mk_some.mpr ?_
              rw [hnodepath, hsegs]
              exact hwfcs'
            · intro n hn
              rcases List.mem_append.mp hn with hn | hn
              · exact wfW1 n (by rw [hlev]; exact List.mem_append.mpr (Or.inl hn))
              · rcases List.mem_cons.mp hn with rfl | hn
                · exact wfW1 node hnodemem
                · exact wfW1 n (by
                    rw [hlev]
                    exact List.mem_append.mpr (Or.inr (List.mem_cons.mpr (Or.inr hn))))
            · intro n hn q hq1 hq2 hq3 hq4
              have hpick : ∃ n', n' ∈ level ∧ segsOf n'.path = segsOf n.path := by
                rcases List.mem_append.mp hn with hn | hn
                · exact ⟨n, by rw [hlev]; exact List.mem_append.mpr (Or.inl hn), rfl⟩
                · rcases List.mem_cons.mp hn with rfl | hn
                  · exact ⟨node, hnodemem, rfl⟩
                  · exact ⟨n, by
                      rw [hlev]
                      exact List.mem_append.mpr (Or.inr (List.mem_cons.mpr (Or.inr hn))), rfl⟩
              obtain ⟨n', hn', hp'⟩ := hpick
              obtain ⟨m, hm, hms, hmc⟩ := wfW3 n' hn' q hq1
                (by rw [hp']; exact hq2) hq3 (by rw [hp']; exact hq4)
              rw [hlev] at hm
              rcases List.mem_append.mp hm with hm1 | hm1
              · exact ⟨m, List.mem_append.mpr (Or.inl hm1), hms, hmc⟩
              · rcases List.mem_cons.mp hm1 with rfl | hm1
                · rw [hch] at hmc
                  simp at hmc
                · exact ⟨m, List.mem_append.mpr (Or.inr (List.mem_cons.mpr (Or.inr hm1))),
                    hms, hmc⟩
            · rw [hfpnew]
              exact nodup_sandwich holdnd ((forestWF_def _ _).mp hwfcs').2.2 hndnotin
                hnotl1 hnotl2
          · intro p
            rw [hfpnew, cumPaths_cons]
            have h1 := hmemcs p
            constructor
            · intro hp
              rcases List.mem_append.mp hp with hp | hp
              · rcases List.mem_append.mp hp with hp | hp
                · exact Or.inl (by
                    rw [hfpold]
                    exact List.mem_append.mpr (Or.inl (List.mem_append.mpr (Or.inl hp))))
                · rcases List.mem_cons.mp hp with rfl | hp
                  · exact Or.inl (path_mem_forestPaths hnodemem)
                  · rcases h1.mp hp with hp2 | hp2
                    · exact Or.inl (by
                        rw [hfpold]
                        exact List.mem_append.mpr (Or.inl (List.mem_append.mpr
                          (Or.inr (List.mem_cons.mpr (Or.inr hp2))))))
                    · exact Or.inr (List.mem_cons.mpr (Or.inr hp2))
              · exact Or.inl (by
                  rw [hfpold]
                  exact List.mem_append.mpr (Or.inr hp))
            · intro hp
              rcases hp with hp | hp
              · rw [hfpold] at hp
                rcases List.mem_append.mp hp with hp | hp
                · rcases List.mem_append.mp hp with hp | hp
                  · exact List.mem_append.mpr (Or.inl (List.mem_append.mpr (Or.inl hp)))
                  · rcases List.mem_cons.mp hp with rfl | hp
                    · exact List.mem_append.mpr (Or.inl (List.mem_append.mpr
                        (Or.inr (List.mem_cons.mpr (Or.inl rfl)))))
                    · exact List.mem_append.mpr (Or.inl (List.mem_append.mpr
                        (Or.inr (List.mem_cons.mpr (Or.inr (h1.mpr (Or.inl hp)))))))
                · exact List.mem_append.mpr (Or.inr hp)
              · rcases List.mem_cons.mp hp with rfl | hp
                · rw [← hnodepath]
                  exact List.mem_append.mpr (Or.inl (List.mem_append.mpr
                    (Or.inr (List.mem_cons.mpr (Or.inl rfl)))))
                · exact List.mem_append.mpr (Or.inl (List.mem_append.mpr
                    (Or.inr (List.mem_cons.mpr (Or.inr (h1.mpr (Or.inr hp)))))))
      | none =>
        rw [insertParts_some_stuck hfind hch]
        obtain ⟨hwf2, hmem2⟩ := ih level (consumed ++ [part]) base hwf hokrest hok' hbc'
          (by
            intro q hq1 hq2 hq3
            rcases List.prefix_concat_iff.mp hq2 with hq | hq
            · refine ⟨node, hnodemem, ?_, hch⟩
              rw [hnodepath, hsegs]
              exact hq.symm
            · exact hhist q hq1 hq hq3)
        refine ⟨hwf2, ?_⟩
        intro p
        rw [cumPaths_cons, hmem2 p]
        constructor
        · rintro (hp | hp)
          · exact Or.inl hp
          · exact Or.inr (List.mem_cons.mpr (Or.inr hp))
        · rintro (hp | hp)
          · exact Or.inl hp
          · rcases List.mem_cons.mp hp with rfl | hp
            · refine Or.inl ?_
              rw [← hnodepath]
              exact path_mem_forestPaths hnodemem
            · exact Or.inr hp

/-! ## Sibling-order preservation -/

mutual
theorem nodeLe_refl : ∀ (n : FileNode), NodeLe n n
  | .mk _ _ _ _ ch => ⟨rfl, rfl, rfl, rfl, childLe_refl ch⟩
theorem childLe_refl : ∀ (ch : Option (List FileNode)), ChildLe ch ch
  | none => True.intro
  | some cs => forestLe_refl cs
theorem forestLe_refl : ∀ (ns : List FileNode), ForestLe ns ns
  | [] => True.intro
  | n :: ns => ⟨nodeLe_refl n, forestLe_refl ns⟩
end

theorem forestLe_append_right : ∀ (a b : List FileNode), ForestLe a (a ++ b)
  | [], _ => True.intro
  | n :: ns, b => ⟨nodeLe_refl n, forestLe_append_right ns b⟩

theorem forestLe_middle : ∀ (l1 : List FileNode) (n m : FileNode) (l2 : List FileNode),
    NodeLe n m → ForestLe (l1 ++ n :: l2) (l1 ++ m :: l2)
  | [], _, _, l2, h => ⟨h, forestLe_refl l2⟩
  | a :: as, n, m, l2, h => ⟨nodeLe_refl a, forestLe_middle as n m l2 h⟩

/-- A file walk only appends new siblings or descends into children: it never
reorders or removes existing nodes. -/
theorem insertParts_extends : ∀ (parts : List String) (level : List FileNode)
    (consumed : List String), ForestLe level (insertParts level consumed parts) := by
  intro parts
  induction parts with
  | nil =>
    intro level consumed
    rw [insertParts_nil]
    exact forestLe_refl level
  | cons part rest ih =>
    intro level consumed
    cases hfind : findNode level (joinPath (consumed ++ [part])) with
    | none =>
      cases rest with
      | nil =>
        rw [insertParts_none_file hfind]
        exact forestLe_append_right level _
      | cons r rs =>
        rw [insertParts_none_dir hfind (by simp)]
        exact forestLe_append_right level _
    | some node =>
      cases hch : node.children with
      | some cs =>
        cases rest with
        | nil =>
          rw [insertParts_some_file hfind hch]
          exact forestLe_refl level
        | cons r rs =>
          rw [insertParts_some_dir hfind hch (by simp)]
          obtain ⟨l1, l2, hlev, _, hrep⟩ := replaceChildren_split hfind
            (insertParts cs (consumed ++ [part]) (r :: rs))
          rw [hrep, hlev]
          refine forestLe_middle l1 _ _ l2 ?_
          cases node with
          | mk nm p f c ch =>
            cases ch with
            | none => simp [FileNode.children] at hch
            | some cs2 =>
              rw [show cs2 = cs from Option.some.inj hch]
              exact ⟨rfl, rfl, rfl, rfl, ih cs (consumed ++ [part])⟩
      | none =>
        rw [insertParts_some_stuck hfind hch]
        exact ih level (consumed ++ [part])

theorem buildFileTree_snoc (files : List ProcessedFile) (f : ProcessedFile) :
    buildFileTree (files ++ [f]) =
      insertParts (buildFileTree files) [] (splitPath f.path) := by
  unfold buildFileTree
  rw [List.foldl_append]
  rfl

theorem buildFileTree_le (files : List ProcessedFile) (f : ProcessedFile) :
    ForestLe (buildFileTree files) (buildFileTree (files ++ [f])) := by
  rw [buildFileTree_snoc]
  exact insertParts_extends _ _ _

theorem allTreePaths_nil : allTreePaths [] = [] := rfl

theorem allTreePaths_cons (f : ProcessedFile) (fs : List ProcessedFile) :
    allTreePaths (f :: fs) = cumPaths [] (splitPath f.path) ++ allTreePaths fs := by
  unfold allTreePaths
  rw [List.flatMap_cons]

/-- The fold underlying `buildFileTree` preserves the tree invariant and adds
exactly the cumulative prefixes of the processed files. -/
theorem buildTree_fold : ∀ (files : List ProcessedFile) (root : List FileNode),
    ForestWF [] root →
    ForestWF [] (files.foldl (fun r f => insertParts r [] (splitPath f.path)) root) ∧
    (∀ p, p ∈ forestPaths
        (files.foldl (fun r f => insertParts r [] (splitPath f.path)) root) ↔
      p ∈ forestPaths root ∨ p ∈ allTreePaths files) := by
  intro files
  induction files with
  | nil =>
    intro root hwf
    rw [List.foldl_nil]
    refine ⟨hwf, ?_⟩
    intro p
    rw [allTreePaths_nil]
    simp
  | cons f fs ih =>
    intro root hwf
    rw [List.foldl_cons]
    obtain ⟨hwf1, hmem1⟩ := insertParts_wf (splitPath f.path) root [] [] hwf
      (splitPath_ok f.path) (by intro s hs; cases hs) (List.prefix_refl _)
      (by
        intro q hq1 hq2 hq3
        exact absurd (List.prefix_nil.mp hq2) hq3)
    obtain ⟨hwf2, hmem2⟩ := ih (insertParts root [] (splitPath f.path)) hwf1
    refine ⟨hwf2, ?_⟩
    intro p
    rw [hmem2 p, hmem1 p, allTreePaths_cons, List.mem_append]
    tauto

/-- The global invariant of `buildFileTree`. -/
theorem buildFileTree_invariant (files : List ProcessedFile) :
    ForestWF [] (buildFileTree files) ∧
    (∀ p, p ∈ forestPaths (buildFileTree files) ↔ p ∈ allTreePaths files) := by
  unfold buildFileTree
  have hwfnil : ForestWF [] ([] : List FileNode) := by
    rw [forestWF_def]
    refine ⟨allChildrenWF_nil, ⟨?_, ?_⟩, by rw [forestPaths_nil]; exact List.nodup_nil⟩
    · intro n hn
      cases hn
    · intro n hn
      cases hn
  obtain ⟨hwf, hmem⟩ := buildTree_fold files [] hwfnil
  refine ⟨hwf, ?_⟩
  intro p
  rw [hmem p, forestPaths_nil]
  simp

/-- **C8**: for every input list of files, `buildFileTree` produces exactly one
node per distinct cumulative path prefix — the forest's node paths are
duplicate-free and are exactly the cumulative prefixes of the input paths, so
a prefix's node is created on first encounter and reused thereafter — and
sibling order at every level equals first-appearance order of the input:
appending a new input file only extends the forest in place (never reordering
existing siblings), and the input `[b, a]` yields the root order `[b, a]`,
not the alphabetical order. -/
theorem c8_tree_unique_paths_first_seen_order :
    (∀ files : List ProcessedFile,
      (forestPaths (buildFileTree files)).Nodup ∧
      (∀ p, p ∈ forestPaths (buildFileTree files) ↔ p ∈ allTreePaths files)) ∧
    (∀ (files : List ProcessedFile) (f : ProcessedFile),
      ForestLe (buildFileTree files) (buildFileTree (files ++ [f]))) ∧
    buildFileTree [exOrdB, exOrdA] =
      [FileNode.mk "b" "b" true true none, FileNode.mk "a" "a" true true none] := by
  refine ⟨?_, buildFileTree_le, ?_⟩
  · intro files
    obtain ⟨hwf, hmem⟩ := buildFileTree_invariant files
    exact ⟨((forestWF_def _ _).mp hwf).2.2, hmem⟩
  · rfl
